import Mathlib

/-!
# Verification of the elliptic-curve factorization core (`src/main.py`)

This file gives a shallow embedding of the Python program in `src/main.py`:
an elliptic-curve group-arithmetic layer over the ring of residues modulo an
integer (Python `%` on a positive modulus is `Int.emod`), together with the
Lenstra ECM orchestration and the auxiliary Pollard rho routine.

Conventions of the embedding:
* Python integers are `Int`; Python `x % p` (for `p > 0`) is `Int.emod`, and
  `pow(x, k, p)` is `x ^ k % p`.
* `pow(d, -1, p)` (which raises `ValueError` when `gcd(d, p) ≠ 1`, and
  otherwise returns the unique inverse in `[0, p)`) is `invMod d p`, with the
  inverse value computed from the extended Euclidean algorithm (`Int.gcdA`);
  for `p > 1` and `gcd(d, p) = 1` this is the same canonical representative.
* Python exceptions are the error side of `Except PyErr`:
  `curveMismatch` is the `TypeError` raised at the top of `__add__`,
  `noneTypeError` is the `TypeError` from arithmetic on an absent (`None`)
  coordinate, `notOnCurve` and `singular` are the two `ValueError`s of the
  constructors, and `zeroDiv den` is `ZeroDivisionError(den)`.
* The random draws of `Lenstra` (one `(x, y, a)` triple per attempt) and of
  `pollardRho` (the initial seed) are passed in explicitly, and the
  unbounded `while True` loop of `pollardRho` is run on explicit fuel.
-/

namespace TFG

/-- Error values corresponding to the Python exceptions raised by the code. -/
inductive PyErr where
  | curveMismatch : PyErr
  | noneTypeError : PyErr
  | notOnCurve : PyErr
  | singular : PyErr
  | zeroDiv : Int → PyErr
deriving DecidableEq, Repr

/-- `EllipticCurve` from `src/main.py`: parameters `a`, `b` over modulus `p`. -/
structure EllipticCurve where
  a : Int
  b : Int
  p : Int
deriving DecidableEq, Repr

/-- `EllipticCurve.__init__`: stores the parameters after checking that the
discriminant `(4*a**3 + 27*b**2) % p` is nonzero, else raises
`ValueError("La curva es singular")`. -/
def mkCurve (a b p : Int) : Except PyErr EllipticCurve :=
  if (4 * a ^ 3 + 27 * b ^ 2) % p = 0 then .error .singular
  else .ok ⟨a, b, p⟩

/-- `Point` from `src/main.py`: a curve reference and optional coordinates;
`None`/`none` coordinates represent the point at infinity. -/
structure Point where
  curve : EllipticCurve
  x : Option Int
  y : Option Int
deriving DecidableEq, Repr

/-- `Point(curve)`: the point at infinity. -/
def infinity (c : EllipticCurve) : Point :=
  ⟨c, none, none⟩

/-- `Point._is_on_curve`: `True` when either coordinate is absent, otherwise
checks `y^2 ≡ x^3 + a*x + b (mod p)` on the reduced coordinates, exactly as
the source computes it. -/
def isOnCurve (pt : Point) : Bool :=
  match pt.x, pt.y with
  | some x0, some y0 =>
    let m := pt.curve.p
    let x := x0 % m
    let y := y0 % m
    decide ((y * y) % m = ((x ^ 3 % m) + (pt.curve.a * x) % m + pt.curve.b) % m)
  | _, _ => true

/-- `Point.__init__`: the all-`None` point is accepted with no check;
otherwise the curve-membership check runs and failure raises
`ValueError("El punto no está en la curva")`. -/
def mkPoint (c : EllipticCurve) (x y : Option Int) : Except PyErr Point :=
  if x = none ∧ y = none then .ok ⟨c, x, y⟩
  else if isOnCurve ⟨c, x, y⟩ then .ok ⟨c, x, y⟩ else .error .notOnCurve

/-- The representation invariant intended by the source (spec §3): both
coordinates present, or both absent. -/
def wellFormed (pt : Point) : Prop :=
  pt.x = none ↔ pt.y = none

instance (pt : Point) : Decidable (wellFormed pt) := by
  unfold wellFormed; infer_instance

/-- `Point.__eq__`: infinity only equals infinity; two affine points are
compared by curve parameters and then by coordinates modulo `self.curve.p`,
with Python's left-to-right short-circuit. Accessing an absent `y` on a
point whose `x` is present raises `TypeError` (`None % int`). -/
def eqPoints (s o : Point) : Except PyErr Bool :=
  match s.x, o.x with
  | none, none => .ok true
  | none, some _ => .ok false
  | some _, none => .ok false
  | some x1, some x2 =>
    if s.curve.a = o.curve.a ∧ s.curve.b = o.curve.b ∧ s.curve.p = o.curve.p then
      if x1 % s.curve.p = x2 % s.curve.p then
        match s.y, o.y with
        | some y1, some y2 => .ok (decide (y1 % s.curve.p = y2 % s.curve.p))
        | _, _ => .error .noneTypeError
      else .ok false
    else .ok false

/-- `Point.__neg__`: infinity is returned unchanged; otherwise the point
`(x, (-y) % p)` is constructed (re-running the membership check). -/
def neg (pt : Point) : Except PyErr Point :=
  match pt.x with
  | none => .ok pt
  | some x =>
    match pt.y with
    | none => .error .noneTypeError
    | some y => mkPoint pt.curve (some x) (some ((-y) % pt.curve.p))

/-- The value `Point.__neg__` returns on an affine point that passes the
membership check (pure counterpart of `neg`). -/
def negPt (pt : Point) : Point :=
  match pt.x, pt.y with
  | some x, some y => ⟨pt.curve, some x, some ((-y) % pt.curve.p)⟩
  | _, _ => pt

/-- The inverse representative Python's `pow(d, -1, m)` returns when it
exists, computed via the extended Euclidean algorithm. -/
def pyInv (d m : Int) : Int :=
  Int.gcdA d m % m

/-- Python's `pow(d, -1, m)`: `none` models the `ValueError` raised when
`gcd(d, m) ≠ 1`. -/
def invMod (d m : Int) : Option Int :=
  if Int.gcd d m = 1 then some (pyInv d m) else none

/-- The result abscissa `x3 = (pow(slope, 2, p) - self.x - other.x) % p`
computed on line 106 of the source. -/
def x3val (c : EllipticCurve) (x1 x2 s : Int) : Int :=
  (s ^ 2 % c.p - x1 - x2) % c.p

/-- The result ordinate `y3 = (-self.y + slope * (self.x - x3)) % p`
computed on line 107 of the source. -/
def y3val (c : EllipticCurve) (x1 y1 x2 s : Int) : Int :=
  (-y1 + s * (x1 - x3val c x1 x2 s)) % c.p

/-- The slope computed in the doubling branch of `Point.__add__`:
`((3 * pow(x, 2, p) + a) % p) * pow((2*y) % p, -1, p) % p`. -/
def doubleSlope (c : EllipticCurve) (x1 y1 : Int) : Int :=
  (3 * (x1 ^ 2 % c.p) + c.a) % c.p * pyInv ((2 * y1) % c.p) c.p % c.p

/-- The slope computed in the distinct-point branch of `Point.__add__`:
`((y2 - y1) % p) * pow((x2 - x1) % p, -1, p) % p`. -/
def chordSlope (c : EllipticCurve) (x1 y1 x2 y2 : Int) : Int :=
  (y2 - y1) % c.p * pyInv ((x2 - x1) % c.p) c.p % c.p

/-- The common tail of both slope branches of `Point.__add__` (lines
106-109 of the source): the result coordinates and the constructor call. -/
def addFinish (c : EllipticCurve) (x1 x2 y1 slope : Int) : Except PyErr Point :=
  mkPoint c (some (x3val c x1 x2 slope)) (some (y3val c x1 y1 x2 slope))

/-- `Point.__add__`. Note that the operand check compares only the moduli
(`self.curve.p != other.curve.p`), and that the outer
`except ZeroDivisionError` re-raises the same denominator unchanged, so it
is the identity on the error. -/
def add (s o : Point) : Except PyErr Point :=
  if s.curve.p ≠ o.curve.p then .error .curveMismatch
  else
    match s.x, o.x with
    | none, _ => .ok o
    | some _, none => .ok s
    | some x1, some x2 =>
      match neg o with
      | .error e => .error e
      | .ok no =>
        match eqPoints s no with
        | .error e => .error e
        | .ok true => .ok (infinity s.curve)
        | .ok false =>
          match eqPoints s o with
          | .error e => .error e
          | .ok true =>
            if s.y = some 0 then .ok (infinity s.curve)
            else
              match s.y with
              | none => .error .noneTypeError
              | some y1 =>
                let m := s.curve.p
                let num := (3 * (x1 ^ 2 % m) + s.curve.a) % m
                let den := (2 * y1) % m
                if den = 0 then .error (.zeroDiv den)
                else
                  match invMod den m with
                  | none => .error (.zeroDiv den)
                  | some iv => addFinish s.curve x1 x2 y1 ((num * iv) % m)
          | .ok false =>
            match s.y, o.y with
            | some y1, some y2 =>
              let m := s.curve.p
              let num := (y2 - y1) % m
              let den := (x2 - x1) % m
              if den = 0 then .error (.zeroDiv den)
              else
                match invMod den m with
                | none => .error (.zeroDiv den)
                | some iv => addFinish s.curve x1 x2 y1 ((num * iv) % m)
            | _, _ => .error .noneTypeError

/-- The `while scalar:` loop of `Point.__mul__` (double-and-add). The
doubling `current += current` runs on every iteration, including the last,
exactly as in the source; no error is caught. -/
def mulLoop (result current : Point) (s : Nat) : Except PyErr Point :=
  if h : s = 0 then .ok result
  else
    match (if s % 2 = 1 then add result current else .ok result) with
    | .error e => .error e
    | .ok r' =>
      match add current current with
      | .error e => .error e
      | .ok c' => mulLoop r' c' (s / 2)
termination_by s
decreasing_by exact Nat.div_lt_self (Nat.pos_of_ne_zero h) one_lt_two

/-- `Point.__mul__` for a nonnegative scalar: the special cases for zero and
for the point at infinity, then the double-and-add loop. -/
def mulNat (pt : Point) (s : Nat) : Except PyErr Point :=
  if s = 0 then .ok (infinity pt.curve)
  else if pt.x = none then .ok pt
  else mulLoop (infinity pt.curve) pt s

/-- `Point.__mul__`: a negative scalar multiplies the negated point by the
positive scalar. -/
def mul (pt : Point) (k : Int) : Except PyErr Point :=
  if k < 0 then
    match neg pt with
    | .error e => .error e
    | .ok np => mulNat np (-k).toNat
  else mulNat pt k.toNat

/-- The `k`-fold iterated sum `p + p + ... + p` computed by repeated `add`
starting from the point at infinity (the reference computation of spec §8's
scalar-multiplication consistency property). -/
def addIter (pt : Point) : Nat → Except PyErr Point
  | 0 => .ok (infinity pt.curve)
  | k + 1 =>
    match addIter pt k with
    | .error e => .error e
    | .ok acc => add acc pt

/-- The body of `pollardRho`'s `while True` loop, run on explicit fuel:
`A` advances once and `B` twice per iteration under `x ↦ x² + 1 mod n`,
then `p = gcd(A - B, n)` is inspected. -/
def pollardRhoLoop (n : Int) (A B : Int) : Nat → Option Int
  | 0 => none
  | fuel + 1 =>
    let A' := (A * A + 1) % n
    let B1 := (B * B + 1) % n
    let B' := (B1 * B1 + 1) % n
    let g : Int := Int.gcd (A' - B') n
    if 1 < g ∧ g < n then some g
    else if g = n then some n
    else pollardRhoLoop n A' B' fuel

/-- `pollardRho`, with the random initial value `seed` (drawn by the source
from `randrange(2, n - 1)`) passed in explicitly. -/
def pollardRho (n seed : Int) (fuel : Nat) : Option Int :=
  pollardRhoLoop n seed seed fuel

/-- The inner `for i in range(2, B + 1)` loop of `Lenstra`, written over the
explicit list of scalars; errors from `__mul__` propagate. -/
def ecmLoop (cur : Point) : List Int → Except PyErr Point
  | [] => .ok cur
  | i :: rest =>
    match mul cur i with
    | .error e => .error e
    | .ok c' => ecmLoop c' rest

/-- One attempt of `Lenstra` on the sampled triple `(x, y, a)`: derive `b`,
construct the curve and the point, run the scalar-multiplication loop, and
catch exactly `ZeroDivisionError` — converting its denominator into
`gcd(den, n)` and keeping it only when strictly between 1 and `n`. All other
errors (in particular the singular-curve `ValueError`) propagate. -/
def lenstraAttempt (n : Int) (B : Nat) (x y a : Int) : Except PyErr (Option Int) :=
  match mkCurve a (((y ^ 2 % n) - ((x ^ 3 % n) + (a * x) % n)) % n) n with
  | .error e => .error e
  | .ok c =>
    match mkPoint c (some x) (some y) with
    | .error e => .error e
    | .ok pt =>
      match ecmLoop pt ((List.range' 2 (B - 1)).map (Int.ofNat ·)) with
      | .ok _ => .ok none
      | .error (.zeroDiv den) =>
        if 1 < (Int.gcd den n : Int) ∧ (Int.gcd den n : Int) < n
        then .ok (some (Int.gcd den n)) else .ok none
      | .error e => .error e

/-- `Lenstra(n, B, attempts)`, with the per-attempt random draws passed as
the explicit list `samples` (one `(x, y, a)` triple per attempt). Returns
`some factor` on success and `none` when every attempt was used up. -/
def Lenstra (n : Int) (B : Nat) : List (Int × Int × Int) → Except PyErr (Option Int)
  | [] => .ok none
  | (x, y, a) :: rest =>
    match lenstraAttempt n B x y a with
    | .error e => .error e
    | .ok (some f) => .ok (some f)
    | .ok none => Lenstra n B rest

/-! ## Toolkit: Euclidean `%` and casts into `ZMod` -/

theorem emod_idem (a m : Int) : a % m % m = a % m :=
  Int.emod_emod_of_dvd a dvd_rfl

theorem castEmod {M : Nat} {m : Int} (hm : m = (M : Int)) (a : Int) :
    ((a % m : Int) : ZMod M) = (a : ZMod M) := by
  subst hm
  rw [Int.emod_def]
  push_cast
  simp

theorem castEq {M : Nat} {m : Int} (hm : m = (M : Int)) (a b : Int) :
    a % m = b % m ↔ (a : ZMod M) = (b : ZMod M) := by
  subst hm
  exact (ZMod.intCast_eq_intCast_iff' a b M).symm

/-- The membership check of `Point._is_on_curve`, transported to the residue
ring `ZMod M` where it reads as the short Weierstrass equation. -/
theorem isOnCurve_iff {M : Nat} {c : EllipticCurve} (hm : c.p = (M : Int)) (x y : Int) :
    isOnCurve ⟨c, some x, some y⟩ = true ↔
      (y : ZMod M) ^ 2 = (x : ZMod M) ^ 3 + (c.a : ZMod M) * (x : ZMod M) + (c.b : ZMod M) := by
  unfold isOnCurve
  simp only [decide_eq_true_eq]
  rw [castEq hm]
  push_cast [castEmod hm]
  constructor <;> intro h <;> linear_combination h

/-! ## Toolkit: the chord-and-tangent point stays on the curve

Two commutative-ring identities verifying that the coordinates computed in
`Point.__add__` satisfy the curve equation, given that the slope `s`
satisfies its defining relation exactly and (in the distinct-point case)
that the denominator has inverse `u`. -/

theorem slopeRel_distinct {R : Type} [CommRing R] (a b x1 y1 x2 y2 s u : R)
    (h1 : y1 ^ 2 = x1 ^ 3 + a * x1 + b) (h2 : y2 ^ 2 = x2 ^ 3 + a * x2 + b)
    (hs : s * (x2 - x1) = y2 - y1) (hu : (x2 - x1) * u = 1) :
    (s * (x1 - (s ^ 2 - x1 - x2)) - y1) ^ 2 =
      (s ^ 2 - x1 - x2) ^ 3 + a * (s ^ 2 - x1 - x2) + b := by
  linear_combination (1 - u * ((s ^ 2 - x1 - x2) - x1)) * h1 +
    (u * ((s ^ 2 - x1 - x2) - x1)) * h2 +
    (u * ((s ^ 2 - x1 - x2) - x1) * (2 * y2 + (s * (x2 - x1) - (y2 - y1)))) * hs +
    (((s ^ 2 - x1 - x2) - x1) * ((a - 2 * s * (y1 - s * x1)) -
      (x1 * x2 + x1 * (s ^ 2 - x1 - x2) + x2 * (s ^ 2 - x1 - x2)))) * hu

theorem slopeRel_double {R : Type} [CommRing R] (a b x1 y1 s : R)
    (h1 : y1 ^ 2 = x1 ^ 3 + a * x1 + b) (hs : s * (2 * y1) = 3 * x1 ^ 2 + a) :
    (s * (x1 - (s ^ 2 - x1 - x1)) - y1) ^ 2 =
      (s ^ 2 - x1 - x1) ^ 3 + a * (s ^ 2 - x1 - x1) + b := by
  linear_combination h1 + ((s ^ 2 - x1 - x1) - x1) * hs

/-! ## Toolkit: the extended-Euclid inverse -/

theorem pyInv_mul {M : Nat} {m : Int} (hm : m = (M : Int)) {d : Int}
    (hg : Int.gcd d m = 1) :
    (d : ZMod M) * ((pyInv d m : Int) : ZMod M) = 1 := by
  subst hm
  have hb := Int.gcd_eq_gcd_ab d ((M : Int))
  rw [hg] at hb
  have hcast := congrArg (fun z : Int => (z : ZMod M)) hb
  push_cast at hcast
  simp only [ZMod.natCast_self, zero_mul, add_zero] at hcast
  unfold pyInv
  rw [@castEmod M ((M : Int)) rfl]
  exact hcast.symm

/-- `gcd · m = 1` only depends on the residue class modulo `m`. -/
theorem gcd_one_of_emod_eq {d d' m : Int} (h : d % m = d' % m)
    (hg : Int.gcd d m = 1) : Int.gcd d' m = 1 := by
  rw [← Int.isCoprime_iff_gcd_eq_one] at hg ⊢
  obtain ⟨a, b, hab⟩ := hg
  obtain ⟨t, ht⟩ : m ∣ d - d' := Int.ModEq.dvd (Int.ModEq.symm h)
  exact ⟨a, b + a * t, by linear_combination hab - a * ht⟩

/-! ## Symbolic execution of `eqPoints`, `neg` and the branches of `add` -/

theorem eqPoints_same (c : EllipticCurve) (x1 y1 x2 y2 : Int) :
    eqPoints ⟨c, some x1, some y1⟩ ⟨c, some x2, some y2⟩ =
      .ok (decide (x1 % c.p = x2 % c.p ∧ y1 % c.p = y2 % c.p)) := by
  show (if c.a = c.a ∧ c.b = c.b ∧ c.p = c.p then _ else _) = _
  rw [if_pos ⟨rfl, rfl, rfl⟩]
  by_cases hx : x1 % c.p = x2 % c.p
  · rw [if_pos hx]
    by_cases hy : y1 % c.p = y2 % c.p <;> simp [hx, hy]
  · rw [if_neg hx]
    simp [hx]

theorem isOnCurve_neg (c : EllipticCurve) (x y : Int)
    (h : isOnCurve ⟨c, some x, some y⟩ = true) :
    isOnCurve ⟨c, some x, some ((-y) % c.p)⟩ = true := by
  unfold isOnCurve at h ⊢
  simp only [decide_eq_true_eq] at h ⊢
  rw [emod_idem]
  have hsq : ((-y) % c.p * ((-y) % c.p)) % c.p = (y % c.p * (y % c.p)) % c.p := by
    conv_lhs => rw [← Int.mul_emod]
    conv_rhs => rw [← Int.mul_emod]
    rw [neg_mul_neg]
  rw [hsq]
  exact h

theorem neg_ok (c : EllipticCurve) (x y : Int)
    (h : isOnCurve ⟨c, some x, some y⟩ = true) :
    neg ⟨c, some x, some y⟩ = .ok ⟨c, some x, some ((-y) % c.p)⟩ := by
  show mkPoint c (some x) (some ((-y) % c.p)) = _
  unfold mkPoint
  rw [if_neg (by simp), if_pos (isOnCurve_neg c x y h)]

theorem add_cancel {c : EllipticCurve} {x1 y1 x2 y2 : Int}
    (hq : isOnCurve ⟨c, some x2, some y2⟩ = true)
    (hcx : x1 % c.p = x2 % c.p) (hcy : y1 % c.p = (-y2) % c.p) :
    add ⟨c, some x1, some y1⟩ ⟨c, some x2, some y2⟩ = .ok (infinity c) := by
  unfold add
  rw [if_neg (by simp), neg_ok c x2 y2 hq]
  dsimp only
  rw [eqPoints_same, emod_idem, decide_eq_true (show _ ∧ _ from ⟨hcx, hcy⟩)]

theorem add_double_eval {c : EllipticCurve} {x1 y1 x2 y2 : Int}
    (hq : isOnCurve ⟨c, some x2, some y2⟩ = true)
    (hnc : ¬(x1 % c.p = x2 % c.p ∧ y1 % c.p = (-y2) % c.p))
    (hd : x1 % c.p = x2 % c.p ∧ y1 % c.p = y2 % c.p) :
    add ⟨c, some x1, some y1⟩ ⟨c, some x2, some y2⟩ =
      if y1 = 0 then .ok (infinity c)
      else if (2 * y1) % c.p = 0 then .error (.zeroDiv ((2 * y1) % c.p))
      else
        match invMod ((2 * y1) % c.p) c.p with
        | none => .error (.zeroDiv ((2 * y1) % c.p))
        | some iv => addFinish c x1 x2 y1 ((((3 * (x1 ^ 2 % c.p) + c.a) % c.p) * iv) % c.p) := by
  unfold add
  rw [if_neg (by simp), neg_ok c x2 y2 hq]
  dsimp only
  rw [eqPoints_same c x1 y1 x2 ((-y2) % c.p), emod_idem, decide_eq_false hnc]
  dsimp only
  rw [eqPoints_same c x1 y1 x2 y2, decide_eq_true (show _ ∧ _ from hd)]
  dsimp only
  simp only [Option.some.injEq]

theorem add_distinct_eval {c : EllipticCurve} {x1 y1 x2 y2 : Int}
    (hq : isOnCurve ⟨c, some x2, some y2⟩ = true)
    (hnc : ¬(x1 % c.p = x2 % c.p ∧ y1 % c.p = (-y2) % c.p))
    (hnd : ¬(x1 % c.p = x2 % c.p ∧ y1 % c.p = y2 % c.p)) :
    add ⟨c, some x1, some y1⟩ ⟨c, some x2, some y2⟩ =
      if (x2 - x1) % c.p = 0 then .error (.zeroDiv ((x2 - x1) % c.p))
      else
        match invMod ((x2 - x1) % c.p) c.p with
        | none => .error (.zeroDiv ((x2 - x1) % c.p))
        | some iv => addFinish c x1 x2 y1 ((((y2 - y1) % c.p) * iv) % c.p) := by
  unfold add
  rw [if_neg (by simp), neg_ok c x2 y2 hq]
  dsimp only
  rw [eqPoints_same c x1 y1 x2 ((-y2) % c.p), emod_idem, decide_eq_false hnc]
  dsimp only
  rw [eqPoints_same c x1 y1 x2 y2, decide_eq_false hnd]

theorem addFinish_eval (c : EllipticCurve) (x1 x2 y1 s : Int)
    (h : isOnCurve ⟨c, some (x3val c x1 x2 s), some (y3val c x1 y1 x2 s)⟩ = true) :
    addFinish c x1 x2 y1 s =
      .ok ⟨c, some (x3val c x1 x2 s), some (y3val c x1 y1 x2 s)⟩ := by
  unfold addFinish mkPoint
  rw [if_neg (by simp), if_pos h]

theorem x3val_cast {M : Nat} {c : EllipticCurve} (hm : c.p = (M : Int)) (x1 x2 s : Int) :
    ((x3val c x1 x2 s : Int) : ZMod M) =
      (s : ZMod M) ^ 2 - (x1 : ZMod M) - (x2 : ZMod M) := by
  unfold x3val
  rw [castEmod hm]
  push_cast [castEmod hm]
  ring

theorem y3val_cast {M : Nat} {c : EllipticCurve} (hm : c.p = (M : Int)) (x1 y1 x2 s : Int) :
    ((y3val c x1 y1 x2 s : Int) : ZMod M) =
      -(y1 : ZMod M) + (s : ZMod M) *
        ((x1 : ZMod M) - ((s : ZMod M) ^ 2 - (x1 : ZMod M) - (x2 : ZMod M))) := by
  unfold y3val x3val
  rw [castEmod hm]
  push_cast [castEmod hm]
  ring

theorem doubleSlope_cast {M : Nat} {c : EllipticCurve} (hm : c.p = (M : Int)) {x1 y1 : Int}
    (hg : Int.gcd ((2 * y1) % c.p) c.p = 1) :
    ((doubleSlope c x1 y1 : Int) : ZMod M) * (2 * (y1 : ZMod M)) =
      3 * (x1 : ZMod M) ^ 2 + (c.a : ZMod M) := by
  have hinv := pyInv_mul hm hg
  rw [castEmod hm] at hinv
  unfold doubleSlope
  rw [castEmod hm]
  push_cast [castEmod hm]
  calc (3 * (x1 : ZMod M) ^ 2 + (c.a : ZMod M)) *
        ((pyInv ((2 * y1) % c.p) c.p : Int) : ZMod M) * (2 * (y1 : ZMod M)) =
      (3 * (x1 : ZMod M) ^ 2 + (c.a : ZMod M)) *
        ((2 * (y1 : ZMod M)) * ((pyInv ((2 * y1) % c.p) c.p : Int) : ZMod M)) := by ring
    _ = 3 * (x1 : ZMod M) ^ 2 + (c.a : ZMod M) := by
        push_cast at hinv
        rw [hinv, mul_one]

theorem chordSlope_cast {M : Nat} {c : EllipticCurve} (hm : c.p = (M : Int))
    {x1 y1 x2 y2 : Int} (hg : Int.gcd ((x2 - x1) % c.p) c.p = 1) :
    ((chordSlope c x1 y1 x2 y2 : Int) : ZMod M) * ((x2 : ZMod M) - (x1 : ZMod M)) =
      (y2 : ZMod M) - (y1 : ZMod M) := by
  have hinv := pyInv_mul hm hg
  rw [castEmod hm] at hinv
  unfold chordSlope
  rw [castEmod hm]
  push_cast [castEmod hm]
  calc ((y2 : ZMod M) - (y1 : ZMod M)) *
        ((pyInv ((x2 - x1) % c.p) c.p : Int) : ZMod M) * ((x2 : ZMod M) - (x1 : ZMod M)) =
      ((y2 : ZMod M) - (y1 : ZMod M)) *
        (((x2 : ZMod M) - (x1 : ZMod M)) * ((pyInv ((x2 - x1) % c.p) c.p : Int) : ZMod M)) := by
        ring
    _ = (y2 : ZMod M) - (y1 : ZMod M) := by
        push_cast at hinv
        rw [hinv, mul_one]

/-- The point built by the distinct-point branch passes the membership
check whenever the slope satisfies its defining relation modulo `M` and the
denominator is invertible there. -/
theorem result_onCurve {M : Nat} {c : EllipticCurve} (hm : c.p = (M : Int))
    {x1 y1 x2 y2 s : Int}
    (h1 : isOnCurve ⟨c, some x1, some y1⟩ = true)
    (h2 : isOnCurve ⟨c, some x2, some y2⟩ = true)
    (hs : (s : ZMod M) * ((x2 : ZMod M) - (x1 : ZMod M)) = (y2 : ZMod M) - (y1 : ZMod M))
    (hu : ∃ u : ZMod M, ((x2 : ZMod M) - (x1 : ZMod M)) * u = 1) :
    isOnCurve ⟨c, some (x3val c x1 x2 s), some (y3val c x1 y1 x2 s)⟩ = true := by
  obtain ⟨u, hu⟩ := hu
  rw [isOnCurve_iff hm] at h1 h2 ⊢
  rw [x3val_cast hm, y3val_cast hm]
  linear_combination slopeRel_distinct (c.a : ZMod M) (c.b : ZMod M)
    (x1 : ZMod M) (y1 : ZMod M) (x2 : ZMod M) (y2 : ZMod M) (s : ZMod M) u h1 h2 hs hu

/-- The point built by the doubling branch passes the membership check
whenever the tangent slope satisfies its defining relation modulo `M`. -/
theorem result_onCurve_double {M : Nat} {c : EllipticCurve} (hm : c.p = (M : Int))
    {x1 y1 x2 s : Int}
    (h1 : isOnCurve ⟨c, some x1, some y1⟩ = true)
    (hx : (x2 : ZMod M) = (x1 : ZMod M))
    (hs : (s : ZMod M) * (2 * (y1 : ZMod M)) = 3 * (x1 : ZMod M) ^ 2 + (c.a : ZMod M)) :
    isOnCurve ⟨c, some (x3val c x1 x2 s), some (y3val c x1 y1 x2 s)⟩ = true := by
  rw [isOnCurve_iff hm] at h1 ⊢
  rw [x3val_cast hm, y3val_cast hm, hx]
  linear_combination slopeRel_double (c.a : ZMod M) (c.b : ZMod M)
    (x1 : ZMod M) (y1 : ZMod M) (s : ZMod M) h1 hs

theorem neg_emod_zero {a m : Int} (h : a % m = 0) : (-a) % m = 0 :=
  Int.emod_eq_zero_of_dvd ((Int.dvd_of_emod_eq_zero h).neg_right)

theorem emod_ne_zero_of_gcd_one {d m : Int} (hp1 : 1 < m) (hg : Int.gcd d m = 1) :
    d ≠ 0 := by
  rintro rfl
  simp [Int.gcd] at hg
  omega

/-- `Point.__add__` in the doubling branch with an invertible denominator:
the full success path, ending in the constructed point. -/
theorem add_ok_double {M : Nat} {c : EllipticCurve} (hm : c.p = (M : Int)) (hp1 : 1 < c.p)
    {x1 y1 x2 y2 : Int}
    (h1 : isOnCurve ⟨c, some x1, some y1⟩ = true)
    (h2 : isOnCurve ⟨c, some x2, some y2⟩ = true)
    (hnc : ¬(x1 % c.p = x2 % c.p ∧ y1 % c.p = (-y2) % c.p))
    (hd : x1 % c.p = x2 % c.p ∧ y1 % c.p = y2 % c.p)
    (hg : Int.gcd ((2 * y1) % c.p) c.p = 1) :
    add ⟨c, some x1, some y1⟩ ⟨c, some x2, some y2⟩ =
      .ok ⟨c, some (x3val c x1 x2 (doubleSlope c x1 y1)),
            some (y3val c x1 y1 x2 (doubleSlope c x1 y1))⟩ := by
  have hy1 : y1 ≠ 0 := by
    rintro rfl
    refine hnc ⟨hd.1, ?_⟩
    have h2y : y2 % c.p = 0 := by
      have := hd.2
      rw [Int.zero_emod] at this
      exact this.symm
    rw [Int.zero_emod, neg_emod_zero h2y]
  have hden : (2 * y1) % c.p ≠ 0 := emod_ne_zero_of_gcd_one hp1 hg
  rw [add_double_eval h2 hnc hd, if_neg hy1, if_neg hden]
  unfold invMod
  rw [if_pos hg]
  have hx : ((x2 : Int) : ZMod M) = ((x1 : Int) : ZMod M) := ((castEq hm x1 x2).mp hd.1).symm
  exact addFinish_eval c x1 x2 y1 _
    (result_onCurve_double hm h1 hx (doubleSlope_cast hm hg))

/-- `Point.__add__` in the distinct-point branch with an invertible
denominator: the full success path. -/
theorem add_ok_distinct {M : Nat} {c : EllipticCurve} (hm : c.p = (M : Int)) (hp1 : 1 < c.p)
    {x1 y1 x2 y2 : Int}
    (h1 : isOnCurve ⟨c, some x1, some y1⟩ = true)
    (h2 : isOnCurve ⟨c, some x2, some y2⟩ = true)
    (hnc : ¬(x1 % c.p = x2 % c.p ∧ y1 % c.p = (-y2) % c.p))
    (hnd : ¬(x1 % c.p = x2 % c.p ∧ y1 % c.p = y2 % c.p))
    (hg : Int.gcd ((x2 - x1) % c.p) c.p = 1) :
    add ⟨c, some x1, some y1⟩ ⟨c, some x2, some y2⟩ =
      .ok ⟨c, some (x3val c x1 x2 (chordSlope c x1 y1 x2 y2)),
            some (y3val c x1 y1 x2 (chordSlope c x1 y1 x2 y2))⟩ := by
  have hden : (x2 - x1) % c.p ≠ 0 := emod_ne_zero_of_gcd_one hp1 hg
  rw [add_distinct_eval h2 hnc hnd, if_neg hden]
  unfold invMod
  rw [if_pos hg]
  have hu : ∃ u : ZMod M, ((x2 : ZMod M) - (x1 : ZMod M)) * u = 1 := by
    refine ⟨((pyInv ((x2 - x1) % c.p) c.p : Int) : ZMod M), ?_⟩
    have := pyInv_mul hm hg
    rw [castEmod hm] at this
    push_cast at this
    exact this
  exact addFinish_eval c x1 x2 y1 _
    (result_onCurve hm h1 h2 (chordSlope_cast hm hg) hu)

/-- `Point.__add__` in the doubling branch with a non-invertible
denominator: the `ZeroDivisionError` carries that denominator. -/
theorem add_err_double {c : EllipticCurve} {x1 y1 x2 y2 : Int}
    (h2 : isOnCurve ⟨c, some x2, some y2⟩ = true)
    (hnc : ¬(x1 % c.p = x2 % c.p ∧ y1 % c.p = (-y2) % c.p))
    (hd : x1 % c.p = x2 % c.p ∧ y1 % c.p = y2 % c.p)
    (hg : Int.gcd ((2 * y1) % c.p) c.p ≠ 1) :
    add ⟨c, some x1, some y1⟩ ⟨c, some x2, some y2⟩ =
      .error (.zeroDiv ((2 * y1) % c.p)) := by
  have hy1 : y1 ≠ 0 := by
    rintro rfl
    refine hnc ⟨hd.1, ?_⟩
    have h2y : y2 % c.p = 0 := by
      have := hd.2
      rw [Int.zero_emod] at this
      exact this.symm
    rw [Int.zero_emod, neg_emod_zero h2y]
  rw [add_double_eval h2 hnc hd, if_neg hy1]
  by_cases h0 : (2 * y1) % c.p = 0
  · rw [if_pos h0]
  · rw [if_neg h0]
    unfold invMod
    rw [if_neg hg]

/-- `Point.__add__` in the distinct-point branch with a non-invertible
denominator (including the denominator-zero case): the `ZeroDivisionError`
carries that denominator. -/
theorem add_err_distinct {c : EllipticCurve} {x1 y1 x2 y2 : Int}
    (h2 : isOnCurve ⟨c, some x2, some y2⟩ = true)
    (hnc : ¬(x1 % c.p = x2 % c.p ∧ y1 % c.p = (-y2) % c.p))
    (hnd : ¬(x1 % c.p = x2 % c.p ∧ y1 % c.p = y2 % c.p))
    (hg : Int.gcd ((x2 - x1) % c.p) c.p ≠ 1) :
    add ⟨c, some x1, some y1⟩ ⟨c, some x2, some y2⟩ =
      .error (.zeroDiv ((x2 - x1) % c.p)) := by
  rw [add_distinct_eval h2 hnc hnd]
  by_cases h0 : (x2 - x1) % c.p = 0
  · rw [if_pos h0]
  · rw [if_neg h0]
    unfold invMod
    rw [if_neg hg]

/-! ## The double-and-add loop: one-step unfolding and error propagation -/

theorem mulLoop_step (r cur : Point) (s : Nat) (hs : s ≠ 0) :
    mulLoop r cur s =
      match (if s % 2 = 1 then add r cur else .ok r) with
      | .error e => .error e
      | .ok r' =>
        match add cur cur with
        | .error e => .error e
        | .ok c' => mulLoop r' c' (s / 2) := by
  rw [mulLoop]
  rw [dif_neg hs]

/-- An error of the conditional `result += current` is returned unmodified. -/
theorem mulLoop_err_left {r cur : Point} {s : Nat} {e : PyErr} (hs : s ≠ 0)
    (hodd : s % 2 = 1) (herr : add r cur = .error e) :
    mulLoop r cur s = .error e := by
  rw [mulLoop_step r cur s hs, if_pos hodd, herr]

/-- An error of the unconditional doubling `current += current` is returned
unmodified. -/
theorem mulLoop_err_right {r r' cur : Point} {s : Nat} {e : PyErr} (hs : s ≠ 0)
    (hok : (if s % 2 = 1 then add r cur else .ok r) = .ok r')
    (herr : add cur cur = .error e) :
    mulLoop r cur s = .error e := by
  rw [mulLoop_step r cur s hs, hok, herr]

/-- When both adds of an iteration succeed, the loop recurses on the halved
scalar with the updated accumulator and doubling value. -/
theorem mulLoop_ok_step {r r' cur c' : Point} {s : Nat} (hs : s ≠ 0)
    (hok : (if s % 2 = 1 then add r cur else .ok r) = .ok r')
    (hok2 : add cur cur = .ok c') :
    mulLoop r cur s = mulLoop r' c' (s / 2) := by
  rw [mulLoop_step r cur s hs, hok, hok2]

/-- For a positive scalar and an affine point, `Point.__mul__` enters the
double-and-add loop with the accumulator at infinity. -/
theorem mul_pos_eval (pt : Point) (k : Int) (hk : 0 < k) (hx : pt.x ≠ none) :
    mul pt k = mulLoop (infinity pt.curve) pt k.toNat := by
  unfold mul mulNat
  rw [if_neg (by omega), if_neg (by omega), if_neg hx]

/-! ## Claim C1 -/

/-- C1: for two affine points on the same curve with `p ≠ -q`, let `den` be
the slope denominator (`(2*y1) % p` when `p == q`, `(x2 - x1) % p`
otherwise). If `gcd(den, modulus) ≠ 1` then `add` fails with the
`ZeroDivisionError` (`NonInvertibleDenominator`) carrying exactly `den`,
and if `gcd(den, modulus) = 1` then `add` succeeds. Moreover
`scalarMultiply` does not catch this failure: `__mul__` enters the
double-and-add loop, and the loop returns the error of either failing
`add` unmodified, recursing only when both succeed. -/
theorem C1_add_nonInvertibleDenominator {M : Nat} {c : EllipticCurve} {x1 y1 x2 y2 den : Int}
    (hm : c.p = (M : Int)) (hp1 : 1 < c.p)
    (h1 : isOnCurve ⟨c, some x1, some y1⟩ = true)
    (h2 : isOnCurve ⟨c, some x2, some y2⟩ = true)
    (hne : ¬(x1 % c.p = x2 % c.p ∧ y1 % c.p = (-y2) % c.p))
    (hden : den = if x1 % c.p = x2 % c.p ∧ y1 % c.p = y2 % c.p
        then (2 * y1) % c.p else (x2 - x1) % c.p) :
    ((Int.gcd den c.p ≠ 1 →
        add ⟨c, some x1, some y1⟩ ⟨c, some x2, some y2⟩ = .error (.zeroDiv den)) ∧
      (Int.gcd den c.p = 1 →
        ∃ r, add ⟨c, some x1, some y1⟩ ⟨c, some x2, some y2⟩ = .ok r)) ∧
    (∀ (pt : Point) (k : Int), 0 < k → pt.x ≠ none →
        mul pt k = mulLoop (infinity pt.curve) pt k.toNat) ∧
    (∀ (r cur : Point) (s : Nat) (e : PyErr), s ≠ 0 → s % 2 = 1 →
        add r cur = .error e → mulLoop r cur s = .error e) ∧
    (∀ (r r' cur : Point) (s : Nat) (e : PyErr), s ≠ 0 →
        (if s % 2 = 1 then add r cur else .ok r) = .ok r' →
        add cur cur = .error e → mulLoop r cur s = .error e) ∧
    (∀ (r r' cur c' : Point) (s : Nat), s ≠ 0 →
        (if s % 2 = 1 then add r cur else .ok r) = .ok r' →
        add cur cur = .ok c' → mulLoop r cur s = mulLoop r' c' (s / 2)) := by
  refine ⟨?_, fun pt k hk hx => mul_pos_eval pt k hk hx,
    fun r cur s e hs hodd herr => mulLoop_err_left hs hodd herr,
    fun r r' cur s e hs hok herr => mulLoop_err_right hs hok herr,
    fun r r' cur c' s hs hok hok2 => mulLoop_ok_step hs hok hok2⟩
  by_cases hd : x1 % c.p = x2 % c.p ∧ y1 % c.p = y2 % c.p
  · rw [hden, if_pos hd]
    exact ⟨fun hg => add_err_double h2 hne hd hg,
      fun hg => ⟨_, add_ok_double hm hp1 h1 h2 hne hd hg⟩⟩
  · rw [hden, if_neg hd]
    exact ⟨fun hg => add_err_distinct h2 hne hd hg,
      fun hg => ⟨_, add_ok_distinct hm hp1 h1 h2 hne hd hg⟩⟩

/-- Witness for C1 at a concrete input: the curve `y² = x³ + 1 mod 35` with
`P = (0, 1)`, `Q = (5, 14)`; the denominator is `5`, `gcd(5, 35) = 5 ≠ 1`,
and `add` indeed fails with `ZeroDivisionError(5)`. -/
theorem C1_add_nonInvertibleDenominator_witness :
    (1 : Int) < (35 : Int) ∧
    (((Int.gcd (5 : Int) ((⟨0, 1, 35⟩ : EllipticCurve)).p ≠ 1 →
        add ⟨⟨0, 1, 35⟩, some 0, some 1⟩ ⟨⟨0, 1, 35⟩, some 5, some 14⟩ =
          .error (.zeroDiv 5)) ∧
      (Int.gcd (5 : Int) ((⟨0, 1, 35⟩ : EllipticCurve)).p = 1 →
        ∃ r, add ⟨⟨0, 1, 35⟩, some 0, some 1⟩ ⟨⟨0, 1, 35⟩, some 5, some 14⟩ = .ok r)) ∧
    (∀ (pt : Point) (k : Int), 0 < k → pt.x ≠ none →
        mul pt k = mulLoop (infinity pt.curve) pt k.toNat) ∧
    (∀ (r cur : Point) (s : Nat) (e : PyErr), s ≠ 0 → s % 2 = 1 →
        add r cur = .error e → mulLoop r cur s = .error e) ∧
    (∀ (r r' cur : Point) (s : Nat) (e : PyErr), s ≠ 0 →
        (if s % 2 = 1 then add r cur else .ok r) = .ok r' →
        add cur cur = .error e → mulLoop r cur s = .error e) ∧
    (∀ (r r' cur c' : Point) (s : Nat), s ≠ 0 →
        (if s % 2 = 1 then add r cur else .ok r) = .ok r' →
        add cur cur = .ok c' → mulLoop r cur s = mulLoop r' c' (s / 2))) :=
  ⟨by norm_num,
    @C1_add_nonInvertibleDenominator 35 ⟨0, 1, 35⟩ 0 1 5 14 5 rfl (by norm_num) (by decide)
      (by decide) (by decide) (by decide)⟩

/-! ## Claim C5: the result formulas in the spec's phrasing -/

/-- Two arguments in the same residue class get the same inverse from
`pow(·, -1, m)`. -/
theorem pyInv_eq_of_emod {M : Nat} {m : Int} (hm : m = (M : Int)) {d d' : Int}
    (hdd : d % m = d' % m) (hg : Int.gcd d m = 1) : pyInv d m = pyInv d' m := by
  have hg' : Int.gcd d' m = 1 := gcd_one_of_emod_eq hdd hg
  have h1 := pyInv_mul hm hg
  have h2 := pyInv_mul hm hg'
  rw [pyInv, castEmod hm] at h1 h2
  rw [pyInv, pyInv, castEq hm]
  have hD : ((d : Int) : ZMod M) = ((d' : Int) : ZMod M) := (castEq hm d d').mp hdd
  calc ((Int.gcdA d m : Int) : ZMod M)
      = ((Int.gcdA d m : Int) : ZMod M) * (((d' : Int) : ZMod M) *
          ((Int.gcdA d' m : Int) : ZMod M)) := by rw [h2, mul_one]
    _ = ((Int.gcdA d' m : Int) : ZMod M) * (((d : Int) : ZMod M) *
          ((Int.gcdA d m : Int) : ZMod M)) := by rw [hD]; ring
    _ = ((Int.gcdA d' m : Int) : ZMod M) := by rw [h1, mul_one]

/-- The doubling slope written as in the spec, `((3x² + a) · inverse(2y)) mod p`,
equals the one the code computes. -/
theorem doubleSlope_claim {M : Nat} {c : EllipticCurve} (hm : c.p = (M : Int))
    (x1 y1 : Int) (hg : Int.gcd ((2 * y1) % c.p) c.p = 1) :
    (3 * x1 ^ 2 + c.a) * pyInv (2 * y1) c.p % c.p = doubleSlope c x1 y1 := by
  have hgg : Int.gcd (2 * y1) c.p = 1 := gcd_one_of_emod_eq (emod_idem (2 * y1) c.p) hg
  have hiv : pyInv (2 * y1) c.p = pyInv ((2 * y1) % c.p) c.p :=
    pyInv_eq_of_emod hm (emod_idem (2 * y1) c.p).symm hgg
  rw [hiv]
  unfold doubleSlope
  rw [castEq hm]
  push_cast [castEmod hm]
  ring

/-- The chord slope written as in the spec, `((y₂ - y₁) · inverse(x₂ - x₁)) mod p`,
equals the one the code computes. -/
theorem chordSlope_claim {M : Nat} {c : EllipticCurve} (hm : c.p = (M : Int))
    (x1 y1 x2 y2 : Int) (hg : Int.gcd ((x2 - x1) % c.p) c.p = 1) :
    (y2 - y1) * pyInv (x2 - x1) c.p % c.p = chordSlope c x1 y1 x2 y2 := by
  have hgg : Int.gcd (x2 - x1) c.p = 1 := gcd_one_of_emod_eq (emod_idem (x2 - x1) c.p) hg
  have hiv : pyInv (x2 - x1) c.p = pyInv ((x2 - x1) % c.p) c.p :=
    pyInv_eq_of_emod hm (emod_idem (x2 - x1) c.p).symm hgg
  rw [hiv]
  unfold chordSlope
  rw [castEq hm]
  push_cast [castEmod hm]
  ring

/-- The result abscissa written as in the spec, `(λ² - x₁ - x₂) mod p`,
equals the one the code computes. -/
theorem x3val_claim {M : Nat} {c : EllipticCurve} (hm : c.p = (M : Int)) (x1 x2 s : Int) :
    (s ^ 2 - x1 - x2) % c.p = x3val c x1 x2 s := by
  unfold x3val
  rw [castEq hm]
  push_cast [castEmod hm]
  ring

/-- The result ordinate written as in the spec, `(λ(x₁ - x₃) - y₁) mod p`,
equals the one the code computes. -/
theorem y3val_claim (c : EllipticCurve) (x1 y1 x2 s : Int) :
    (s * (x1 - x3val c x1 x2 s) - y1) % c.p = y3val c x1 y1 x2 s := by
  unfold y3val
  congr 1
  ring

/-- C5: for two affine points on the same curve, (A) doubling a point whose
stored `y` is the literal `0` yields infinity; (B) in the doubling case with
`p ≠ -q` and invertible denominator, `add` returns
`x₃ = (λ² - x₁ - x₂) mod p`, `y₃ = (λ(x₁ - x₃) - y₁) mod p` with
`λ = ((3x₁² + a) · inverse(2y₁)) mod p`; (C) in the distinct-point case
likewise with `λ = ((y₂ - y₁) · inverse(x₂ - x₁)) mod p`. -/
theorem C5_add_resultFormulas {M : Nat} {c : EllipticCurve} {x1 y1 x2 y2 : Int}
    (hm : c.p = (M : Int)) (hp1 : 1 < c.p)
    (h1 : isOnCurve ⟨c, some x1, some y1⟩ = true)
    (h2 : isOnCurve ⟨c, some x2, some y2⟩ = true) :
    (eqPoints ⟨c, some x1, some y1⟩ ⟨c, some x2, some y2⟩ = .ok true → y1 = 0 →
      add ⟨c, some x1, some y1⟩ ⟨c, some x2, some y2⟩ = .ok (infinity c)) ∧
    (∀ L X : Int, L = (3 * x1 ^ 2 + c.a) * pyInv (2 * y1) c.p % c.p →
      X = (L ^ 2 - x1 - x2) % c.p →
      eqPoints ⟨c, some x1, some y1⟩ ⟨c, some x2, some y2⟩ = .ok true →
      eqPoints ⟨c, some x1, some y1⟩ (negPt ⟨c, some x2, some y2⟩) = .ok false →
      Int.gcd ((2 * y1) % c.p) c.p = 1 →
      add ⟨c, some x1, some y1⟩ ⟨c, some x2, some y2⟩ =
        .ok ⟨c, some X, some ((L * (x1 - X) - y1) % c.p)⟩) ∧
    (∀ L X : Int, L = (y2 - y1) * pyInv (x2 - x1) c.p % c.p →
      X = (L ^ 2 - x1 - x2) % c.p →
      eqPoints ⟨c, some x1, some y1⟩ ⟨c, some x2, some y2⟩ = .ok false →
      eqPoints ⟨c, some x1, some y1⟩ (negPt ⟨c, some x2, some y2⟩) = .ok false →
      Int.gcd ((x2 - x1) % c.p) c.p = 1 →
      add ⟨c, some x1, some y1⟩ ⟨c, some x2, some y2⟩ =
        .ok ⟨c, some X, some ((L * (x1 - X) - y1) % c.p)⟩) := by
  have hnegpt : negPt ⟨c, some x2, some y2⟩ = ⟨c, some x2, some ((-y2) % c.p)⟩ := rfl
  refine ⟨?_, ?_, ?_⟩
  · rintro heq rfl
    have hd := of_decide_eq_true (Except.ok.inj ((eqPoints_same c x1 0 x2 y2).symm.trans heq))
    have h2y : y2 % c.p = 0 := by
      have := hd.2
      rw [Int.zero_emod] at this
      exact this.symm
    refine add_cancel h2 hd.1 ?_
    rw [Int.zero_emod, neg_emod_zero h2y]
  · rintro L X rfl rfl heq hneq hg
    have hd := of_decide_eq_true (Except.ok.inj ((eqPoints_same c x1 y1 x2 y2).symm.trans heq))
    rw [hnegpt, eqPoints_same c x1 y1 x2 ((-y2) % c.p), emod_idem] at hneq
    have hnc := of_decide_eq_false (Except.ok.inj hneq)
    rw [doubleSlope_claim hm x1 y1 hg, x3val_claim hm, y3val_claim]
    exact add_ok_double hm hp1 h1 h2 hnc hd hg
  · rintro L X rfl rfl heq hneq hg
    have hnd := of_decide_eq_false (Except.ok.inj ((eqPoints_same c x1 y1 x2 y2).symm.trans heq))
    rw [hnegpt, eqPoints_same c x1 y1 x2 ((-y2) % c.p), emod_idem] at hneq
    have hnc := of_decide_eq_false (Except.ok.inj hneq)
    rw [chordSlope_claim hm x1 y1 x2 y2 hg, x3val_claim hm, y3val_claim]
    exact add_ok_distinct hm hp1 h1 h2 hnc hnd hg

/-- Witness for C5 on the curve `y² = x³ + x + 3 mod 35` with `P = (4, 1)`
and `Q = (6, 15)`. -/
theorem C5_add_resultFormulas_witness :
    ((eqPoints ⟨⟨1, 3, 35⟩, some 4, some 1⟩ ⟨⟨1, 3, 35⟩, some 6, some 15⟩ = .ok true → (1 : Int) = 0 →
      add ⟨⟨1, 3, 35⟩, some 4, some 1⟩ ⟨⟨1, 3, 35⟩, some 6, some 15⟩ = .ok (infinity ⟨1, 3, 35⟩)) ∧
    (∀ L X : Int, L = (3 * (4 : Int) ^ 2 + (⟨1, 3, 35⟩ : EllipticCurve).a) * pyInv (2 * 1) (⟨1, 3, 35⟩ : EllipticCurve).p % (⟨1, 3, 35⟩ : EllipticCurve).p →
      X = (L ^ 2 - 4 - 6) % (⟨1, 3, 35⟩ : EllipticCurve).p →
      eqPoints ⟨⟨1, 3, 35⟩, some 4, some 1⟩ ⟨⟨1, 3, 35⟩, some 6, some 15⟩ = .ok true →
      eqPoints ⟨⟨1, 3, 35⟩, some 4, some 1⟩ (negPt ⟨⟨1, 3, 35⟩, some 6, some 15⟩) = .ok false →
      Int.gcd ((2 * 1) % (⟨1, 3, 35⟩ : EllipticCurve).p) (⟨1, 3, 35⟩ : EllipticCurve).p = 1 →
      add ⟨⟨1, 3, 35⟩, some 4, some 1⟩ ⟨⟨1, 3, 35⟩, some 6, some 15⟩ =
        .ok ⟨⟨1, 3, 35⟩, some X, some ((L * (4 - X) - 1) % (⟨1, 3, 35⟩ : EllipticCurve).p)⟩) ∧
    (∀ L X : Int, L = ((15 : Int) - 1) * pyInv (6 - 4) (⟨1, 3, 35⟩ : EllipticCurve).p % (⟨1, 3, 35⟩ : EllipticCurve).p →
      X = (L ^ 2 - 4 - 6) % (⟨1, 3, 35⟩ : EllipticCurve).p →
      eqPoints ⟨⟨1, 3, 35⟩, some 4, some 1⟩ ⟨⟨1, 3, 35⟩, some 6, some 15⟩ = .ok false →
      eqPoints ⟨⟨1, 3, 35⟩, some 4, some 1⟩ (negPt ⟨⟨1, 3, 35⟩, some 6, some 15⟩) = .ok false →
      Int.gcd (((6 : Int) - 4) % (⟨1, 3, 35⟩ : EllipticCurve).p) (⟨1, 3, 35⟩ : EllipticCurve).p = 1 →
      add ⟨⟨1, 3, 35⟩, some 4, some 1⟩ ⟨⟨1, 3, 35⟩, some 6, some 15⟩ =
        .ok ⟨⟨1, 3, 35⟩, some X, some ((L * (4 - X) - 1) % (⟨1, 3, 35⟩ : EllipticCurve).p)⟩)) :=
  @C5_add_resultFormulas 35 ⟨1, 3, 35⟩ 4 1 6 15 rfl (by norm_num) (by decide) (by decide)

/-! ## Claims C6 and C10 -/

theorem emod_neg_neg (y m : Int) : y % m = (-((-y) % m)) % m := by
  have h2 : Int.ModEq m ((-y) % m) (-y) := emod_idem (-y) m
  have h3 := h2.neg
  calc y % m = (-(-y)) % m := by rw [neg_neg]
    _ = (-((-y) % m)) % m := h3.symm

theorem add_inf_left {c : EllipticCurve} {pt : Point} (hc : pt.curve = c) :
    add (infinity c) pt = .ok pt := by
  show add ⟨c, none, none⟩ pt = .ok pt
  unfold add
  rw [if_neg (show ¬(Point.mk c none none).curve.p ≠ pt.curve.p from fun h => h (by rw [hc]))]

theorem add_inf_right (c : EllipticCurve) (x y : Int) :
    add ⟨c, some x, some y⟩ (infinity c) = .ok ⟨c, some x, some y⟩ := by
  show add ⟨c, some x, some y⟩ ⟨c, none, none⟩ = .ok ⟨c, some x, some y⟩
  unfold add
  rw [if_neg (show ¬(Point.mk c (some x) (some y)).curve.p ≠ (Point.mk c none none).curve.p from
    fun h => h rfl)]

/-- C6: group identity and inverse. For every valid point `p` (infinity
included), `add(p, infinity) = p`, `add(infinity, p) = p`,
`add(p, negate(p)) = infinity`, and `p == p` holds, so the returned points
compare equal to the expected ones under the code's own equality. -/
theorem C6_identity_and_inverse {c : EllipticCurve} {p : Point}
    (hc : p.curve = c) (hwf : wellFormed p) (hoc : isOnCurve p = true) :
    add p (infinity c) = .ok p ∧
    add (infinity c) p = .ok p ∧
    (match neg p with
     | .error e => (.error e : Except PyErr Point)
     | .ok np => add p np) = .ok (infinity c) ∧
    eqPoints p p = .ok true := by
  rcases p with ⟨pc, px, py⟩
  dsimp only at hc
  subst hc
  cases px with
  | none =>
    have hy : py = none := hwf.mp rfl
    subst hy
    exact ⟨add_inf_left rfl, add_inf_left rfl, add_inf_left rfl, rfl⟩
  | some x =>
    have hy : py ≠ none := fun h => by
      have := hwf.mpr h
      simp at this
    obtain ⟨y, rfl⟩ : ∃ y, py = some y := by
      cases py with
      | none => exact absurd rfl hy
      | some y => exact ⟨y, rfl⟩
    refine ⟨add_inf_right pc x y, add_inf_left rfl, ?_, ?_⟩
    · rw [neg_ok pc x y hoc]
      exact add_cancel (isOnCurve_neg pc x y hoc) rfl (emod_neg_neg y pc.p)
    · rw [eqPoints_same]
      simp

/-- Witness for C6 at the affine point `(0, 1)` of `y² = x³ + 1 mod 5`. -/
theorem C6_identity_and_inverse_witness :
    add ⟨⟨0, 1, 5⟩, some 0, some 1⟩ (infinity ⟨0, 1, 5⟩) = .ok ⟨⟨0, 1, 5⟩, some 0, some 1⟩ ∧
    add (infinity ⟨0, 1, 5⟩) ⟨⟨0, 1, 5⟩, some 0, some 1⟩ = .ok ⟨⟨0, 1, 5⟩, some 0, some 1⟩ ∧
    (match neg ⟨⟨0, 1, 5⟩, some 0, some 1⟩ with
     | .error e => (.error e : Except PyErr Point)
     | .ok np => add ⟨⟨0, 1, 5⟩, some 0, some 1⟩ np) = .ok (infinity ⟨0, 1, 5⟩) ∧
    eqPoints ⟨⟨0, 1, 5⟩, some 0, some 1⟩ ⟨⟨0, 1, 5⟩, some 0, some 1⟩ = .ok true :=
  C6_identity_and_inverse rfl (by decide) (by decide)

/-- C10: a point whose stored `y` satisfies `2·y ≡ 0 (mod p)` — even with
`y` itself nonzero — equals its own negation under the code's modular
equality, so `add(p, p)` hits the cancellation branch and returns infinity
before the literal `y == 0` test is ever considered. -/
theorem C10_twoTorsion_cancellation {c : EllipticCurve} {x y : Int}
    (hoc : isOnCurve ⟨c, some x, some y⟩ = true)
    (h2y : (2 * y) % c.p = 0) :
    (∃ np, neg ⟨c, some x, some y⟩ = .ok np ∧
      eqPoints ⟨c, some x, some y⟩ np = .ok true) ∧
    add ⟨c, some x, some y⟩ ⟨c, some x, some y⟩ = .ok (infinity c) := by
  have hcy : y % c.p = (-y) % c.p := by
    rw [Int.emod_eq_emod_iff_emod_sub_eq_zero]
    have h : y - -y = 2 * y := by ring
    rw [h]
    exact h2y
  refine ⟨⟨negPt ⟨c, some x, some y⟩, neg_ok c x y hoc, ?_⟩,
    add_cancel hoc rfl hcy⟩
  show eqPoints _ ⟨c, some x, some ((-y) % c.p)⟩ = .ok true
  rw [eqPoints_same, emod_idem, decide_eq_true (show _ ∧ _ from ⟨rfl, hcy⟩)]

/-- Witness for C10 with the nonzero representative `y = 5 ≡ 0 (mod 5)` on
`y² = x³ + x + 3 mod 5` at `x = 1`. -/
theorem C10_twoTorsion_cancellation_witness :
    (5 : Int) ≠ 0 ∧
    ((∃ np, neg ⟨⟨1, 3, 5⟩, some 1, some 5⟩ = .ok np ∧
      eqPoints ⟨⟨1, 3, 5⟩, some 1, some 5⟩ np = .ok true) ∧
    add ⟨⟨1, 3, 5⟩, some 1, some 5⟩ ⟨⟨1, 3, 5⟩, some 1, some 5⟩ =
      .ok (infinity ⟨1, 3, 5⟩)) :=
  ⟨by decide, C10_twoTorsion_cancellation (by decide) (by decide)⟩

/-! ## Claim C2: Lenstra returns only verified non-trivial divisors -/

theorem lenstraAttempt_some {n : Int} {B : Nat} {x y a d : Int}
    (h : lenstraAttempt n B x y a = .ok (some d)) :
    1 < d ∧ d < n ∧ d ∣ n := by
  unfold lenstraAttempt at h
  split at h
  · exact absurd h (by simp)
  · split at h
    · exact absurd h (by simp)
    · split at h
      · exact absurd h (by simp)
      · rename_i den
        split at h
        · rename_i hcond
          simp only [Except.ok.injEq, Option.some.injEq] at h
          subst h
          exact ⟨hcond.1, hcond.2, Int.gcd_dvd_right⟩
        · exact absurd h (by simp)
      · exact absurd h (by simp)

/-- C2: whenever `Lenstra(n, B, attempts)` returns an integer `d`, that `d`
is a verified non-trivial divisor: `d ∣ n` and `1 < d < n`; the only other
normal return is the explicit not-found signal `none`. -/
theorem C2_Lenstra_verifiedDivisor {n : Int} (hn : 2 ≤ n) (B : Nat)
    (samples : List (Int × Int × Int)) :
    ∀ d : Int, Lenstra n B samples = .ok (some d) → d ∣ n ∧ 1 < d ∧ d < n := by
  induction samples with
  | nil =>
    intro d h
    exact absurd h (by simp [Lenstra])
  | cons t rest ih =>
    obtain ⟨x, y, a⟩ := t
    intro d h
    unfold Lenstra at h
    cases hatt : lenstraAttempt n B x y a with
    | error e =>
      rw [hatt] at h
      exact absurd h (by simp)
    | ok r =>
      rw [hatt] at h
      cases r with
      | none => exact ih d h
      | some f =>
        simp only [Except.ok.injEq, Option.some.injEq] at h
        subst h
        obtain ⟨h1, h2, h3⟩ := lenstraAttempt_some hatt
        exact ⟨h3, h1, h2⟩

/-- Witness for C2: with `n = 35`, bound `B = 2` and the sampled triple
`(x, y, a) = (0, 5, 0)`, Lenstra finds the divisor `5` of `35`. -/
theorem C2_Lenstra_verifiedDivisor_witness :
    (2 : Int) ≤ 35 ∧
    Lenstra 35 2 [(0, 5, 0)] = .ok (some 5) ∧
    ((5 : Int) ∣ 35 ∧ 1 < (5 : Int) ∧ (5 : Int) < 35) := by
  have hadd : add ⟨⟨0, 25, 35⟩, some 0, some 5⟩ ⟨⟨0, 25, 35⟩, some 0, some 5⟩ =
      .error (.zeroDiv 10) := by
    have h := @add_err_double ⟨0, 25, 35⟩ 0 5 0 5 (by decide) (by decide) (by decide)
      (by decide)
    simpa using h
  have hok2 : (if 2 % 2 = 1
        then add (infinity ⟨0, 25, 35⟩) ⟨⟨0, 25, 35⟩, some 0, some 5⟩
        else .ok (infinity ⟨0, 25, 35⟩)) = .ok (infinity ⟨0, 25, 35⟩) := by
    norm_num
  have hml : mulLoop (infinity ⟨0, 25, 35⟩) ⟨⟨0, 25, 35⟩, some 0, some 5⟩ 2 =
      .error (.zeroDiv 10) :=
    mulLoop_err_right (by decide) hok2 hadd
  have hmul : mul ⟨⟨0, 25, 35⟩, some 0, some 5⟩ 2 = .error (.zeroDiv 10) := by
    rw [mul_pos_eval _ 2 (by norm_num) (by simp)]
    exact hml
  have hecm : ecmLoop ⟨⟨0, 25, 35⟩, some 0, some 5⟩ [(2 : Int)] = .error (.zeroDiv 10) := by
    unfold ecmLoop
    rw [hmul]
  have hatt : lenstraAttempt 35 2 0 5 0 = .ok (some 5) := by
    unfold lenstraAttempt
    norm_num [mkCurve, mkPoint, isOnCurve, List.range']
    rw [hecm]
    norm_num
  have hL : Lenstra 35 2 [(0, 5, 0)] = .ok (some 5) := by
    unfold Lenstra
    rw [hatt]
  exact ⟨by norm_num, hL,
    C2_Lenstra_verifiedDivisor (by norm_num) 2 [(0, 5, 0)] 5 hL⟩

/-! ## Claim C3: the singular-curve error is NOT recovered by `Lenstra` -/

/-- C3 (code behavior): the sampled triple `(x, y, a) = (0, 0, 0)` with
`n = 35` derives `b = 0`, so curve construction raises the singular-curve
`ValueError`; `Lenstra`'s `except ZeroDivisionError` does not catch it, so
the error propagates out of `Lenstra` — no matter how many attempts remain
— instead of the attempt being skipped. -/
theorem C3_singular_propagates :
    ∀ rest : List (Int × Int × Int),
      Lenstra 35 1000 ((0, 0, 0) :: rest) = .error .singular := by
  intro rest
  have hatt : lenstraAttempt 35 1000 0 0 0 = .error .singular := by
    unfold lenstraAttempt
    norm_num [mkCurve]
  unfold Lenstra
  rw [hatt]

/-! ## Claim C9: a Point with exactly one absent coordinate -/

/-- C9: `Point` construction succeeds with `x` present and `y` absent
(the membership check passes whenever either coordinate is absent); the
resulting value breaks the both-or-neither representation of infinity, and
the code's equality, treating it as non-infinity, crashes on the missing
coordinate (`None % int`, a `TypeError`) even when compared with itself. -/
theorem C9_onesided_point :
    mkPoint ⟨1, 1, 5⟩ (some 2) none = .ok ⟨⟨1, 1, 5⟩, some 2, none⟩ ∧
    isOnCurve ⟨⟨1, 1, 5⟩, some 2, none⟩ = true ∧
    ¬ wellFormed ⟨⟨1, 1, 5⟩, some 2, none⟩ ∧
    eqPoints ⟨⟨1, 1, 5⟩, some 2, none⟩ ⟨⟨1, 1, 5⟩, some 2, none⟩ =
      .error .noneTypeError := by
  refine ⟨rfl, rfl, by decide, ?_⟩
  rfl

/-! ## Claim C8: Pollard rho -/

theorem pollardRhoLoop_some {n : Int} :
    ∀ (fuel : Nat) (A B d : Int), pollardRhoLoop n A B fuel = some d →
      (1 < d ∧ d < n ∧ d ∣ n) ∨ d = n := by
  intro fuel
  induction fuel with
  | zero =>
    intro A B d h
    exact absurd h (by simp [pollardRhoLoop])
  | succ f ih =>
    intro A B d h
    unfold pollardRhoLoop at h
    dsimp only at h
    split at h
    · rename_i hcond
      simp only [Option.some.injEq] at h
      subst h
      exact Or.inl ⟨hcond.1, hcond.2, Int.gcd_dvd_right⟩
    · split at h
      · rename_i hn
        simp only [Option.some.injEq] at h
        exact Or.inr h.symm
      · exact ih _ _ _ h

/-- C8: `pollardRho` is a single probabilistic attempt. Whatever it
returns is either a verified non-trivial divisor or the failure value `n`
itself; at each iteration it returns `gcd(A - B, n)` as soon as that gcd is
strictly between `1` and `n`, and when the gcd equals `n` it gives up
immediately (returning `n`, not retrying with a fresh seed). -/
theorem C8_pollardRho_singleAttempt {n seed : Int} (hn : 4 ≤ n)
    (hseed : 2 ≤ seed ∧ seed < n - 1) :
    (∀ fuel : Nat, pollardRho n seed fuel = pollardRhoLoop n seed seed fuel) ∧
    (∀ (fuel : Nat) (d : Int), pollardRho n seed fuel = some d →
      (1 < d ∧ d < n ∧ d ∣ n) ∨ d = n) ∧
    (∀ (A B g : Int) (fuel : Nat),
      g = (Int.gcd ((A * A + 1) % n -
            (((B * B + 1) % n * ((B * B + 1) % n) + 1) % n)) n : Int) →
      (1 < g → g < n → pollardRhoLoop n A B (fuel + 1) = some g) ∧
      (g = n → pollardRhoLoop n A B (fuel + 1) = some n)) := by
  refine ⟨fun fuel => rfl, fun fuel d h => pollardRhoLoop_some fuel seed seed d h, ?_⟩
  rintro A B g fuel rfl
  constructor
  · intro h1 h2
    unfold pollardRhoLoop
    rw [if_pos ⟨h1, h2⟩]
  · intro hg
    unfold pollardRhoLoop
    rw [if_neg (by rw [hg]; exact fun hc => lt_irrefl n hc.2), if_pos hg]

/-- Witness for C8 at `n = 15` with seed `2`. -/
theorem C8_pollardRho_singleAttempt_witness :
    (∀ fuel : Nat, pollardRho 15 2 fuel = pollardRhoLoop 15 2 2 fuel) ∧
    (∀ (fuel : Nat) (d : Int), pollardRho 15 2 fuel = some d →
      (1 < d ∧ d < 15 ∧ d ∣ 15) ∨ d = 15) ∧
    (∀ (A B g : Int) (fuel : Nat),
      g = (Int.gcd ((A * A + 1) % 15 -
            (((B * B + 1) % 15 * ((B * B + 1) % 15) + 1) % 15)) 15 : Int) →
      (1 < g → g < 15 → pollardRhoLoop 15 A B (fuel + 1) = some g) ∧
      (g = 15 → pollardRhoLoop 15 A B (fuel + 1) = some 15)) :=
  C8_pollardRho_singleAttempt (by norm_num) (by norm_num)

/-! ## Claim C4: the operand check compares only the moduli -/

/-- Counterexample to C4 as stated: the curves `y² = x³ + x + 1 mod 5` and
`y² = x³ + 2x + 1 mod 5` differ in `a`, yet `add` happily mixes points of
the two (the code compares only `curve.p`) and returns a point instead of
raising `CurveMismatch`. -/
theorem C4_counterexample :
    (⟨1, 1, 5⟩ : EllipticCurve) ≠ ⟨2, 1, 5⟩ ∧
    add ⟨⟨1, 1, 5⟩, some 0, some 1⟩ ⟨⟨2, 1, 5⟩, some 1, some 2⟩ =
      .ok ⟨⟨1, 1, 5⟩, some 0, some 4⟩ := by
  refine ⟨by decide, ?_⟩
  have hinv : Int.gcdA 1 5 = 1 := by
    norm_num [Int.gcdA, Nat.gcdA, Nat.xgcd, Nat.xgcdAux]
  norm_num [add, neg, mkPoint, isOnCurve, eqPoints, invMod, pyInv, addFinish,
    x3val, y3val, infinity, hinv]

theorem mkPoint_no_mismatch (c : EllipticCurve) (x y : Option Int) :
    mkPoint c x y ≠ .error .curveMismatch := by
  unfold mkPoint
  split
  · simp
  · split <;> simp

theorem neg_no_mismatch (pt : Point) : neg pt ≠ .error .curveMismatch := by
  unfold neg
  split
  · simp
  · split
    · simp
    · exact mkPoint_no_mismatch _ _ _

theorem eqPoints_no_mismatch (s o : Point) : eqPoints s o ≠ .error .curveMismatch := by
  unfold eqPoints
  split <;> try simp
  split
  · split
    · split <;> simp
    · simp
  · simp

theorem addFinish_no_mismatch (c : EllipticCurve) (x1 x2 y1 s : Int) :
    addFinish c x1 x2 y1 s ≠ .error .curveMismatch :=
  mkPoint_no_mismatch _ _ _

/-- C4 amended: `add` raises `CurveMismatch` exactly when the two curves'
moduli differ; operands from curves that differ only in `a` or `b` (same
modulus) are never rejected by this check. -/
theorem C4_amended_mismatch_iff_modulus (p q : Point) :
    add p q = .error .curveMismatch ↔ p.curve.p ≠ q.curve.p := by
  constructor
  · intro h
    by_contra hne
    unfold add at h
    rw [if_neg (not_ne_iff.mpr hne)] at h
    split at h
    · exact absurd h (by simp)
    · exact absurd h (by simp)
    · split at h
      · rename_i heq
        simp only [Except.error.injEq] at h
        exact neg_no_mismatch _ (h ▸ heq)
      · split at h
        · rename_i heq
          simp only [Except.error.injEq] at h
          exact eqPoints_no_mismatch _ _ (h ▸ heq)
        · exact absurd h (by simp)
        · split at h
          · rename_i heq
            simp only [Except.error.injEq] at h
            exact eqPoints_no_mismatch _ _ (h ▸ heq)
          · split at h
            · exact absurd h (by simp)
            · split at h
              · exact absurd h (by simp)
              · dsimp only at h
                split at h
                · exact absurd h (by simp)
                · split at h
                  · exact absurd h (by simp)
                  · exact addFinish_no_mismatch _ _ _ _ _ h
          · split at h
            · dsimp only at h
              split at h
              · exact absurd h (by simp)
              · split at h
                · exact absurd h (by simp)
                · exact addFinish_no_mismatch _ _ _ _ _ h
            · exact absurd h (by simp)
  · intro h
    unfold add
    rw [if_pos h]

/-! ## Claim C7: refinement into Mathlib's affine Weierstrass group

For a prime modulus the residue ring is a field, and the code's group law
is shown to track `WeierstrassCurve.Affine.Point` addition, whose group
structure then yields the double-and-add / iterated-add equivalence. -/

/-- The short Weierstrass curve over `ZMod M` with the parameters of `c`. -/
def toW (c : EllipticCurve) (M : Nat) : WeierstrassCurve.Affine (ZMod M) :=
  { a₁ := 0, a₂ := 0, a₃ := 0, a₄ := ((c.a : Int) : ZMod M), a₆ := ((c.b : Int) : ZMod M) }

theorem toW_equation_iff {M : Nat} {c : EllipticCurve} (hm : c.p = (M : Int)) (x y : Int) :
    (toW c M).Equation ((x : Int) : ZMod M) ((y : Int) : ZMod M) ↔
      isOnCurve ⟨c, some x, some y⟩ = true := by
  rw [isOnCurve_iff hm, WeierstrassCurve.Affine.equation_iff]
  simp only [toW]
  constructor <;> intro h <;> linear_combination h

theorem toW_Δ {M : Nat} (c : EllipticCurve) :
    (toW c M).Δ = (-16 : ZMod M) * ((4 * c.a ^ 3 + 27 * c.b ^ 2 : Int) : ZMod M) := by
  show -WeierstrassCurve.b₂ _ ^ 2 * WeierstrassCurve.b₈ _ - 8 * WeierstrassCurve.b₄ _ ^ 3 -
      27 * WeierstrassCurve.b₆ _ ^ 2 + 9 * WeierstrassCurve.b₂ _ *
        WeierstrassCurve.b₄ _ * WeierstrassCurve.b₆ _ = _
  simp only [WeierstrassCurve.b₂, WeierstrassCurve.b₄, WeierstrassCurve.b₆,
    WeierstrassCurve.b₈, toW]
  push_cast
  ring

theorem two_ne_zero_zmod {M : Nat} (hMp : M.Prime) (hM2 : M ≠ 2) :
    (2 : ZMod M) ≠ 0 := by
  intro h
  have h2 : ((2 : Nat) : ZMod M) = 0 := by exact_mod_cast h
  have hdvd : M ∣ 2 := (ZMod.natCast_zmod_eq_zero_iff_dvd 2 M).mp h2
  have hle : M ≤ 2 := Nat.le_of_dvd (by norm_num) hdvd
  have h2le : 2 ≤ M := hMp.two_le
  exact hM2 (by omega)

theorem toW_Δ_ne_zero {M : Nat} {c : EllipticCurve} (hm : c.p = (M : Int))
    (hMp : M.Prime) (hM2 : M ≠ 2)
    (hdisc : (4 * c.a ^ 3 + 27 * c.b ^ 2) % c.p ≠ 0) :
    (toW c M).Δ ≠ 0 := by
  haveI := Fact.mk hMp
  rw [toW_Δ]
  intro h0
  rcases mul_eq_zero.mp h0 with h16 | hD
  · have h2 : (2 : ZMod M) ≠ 0 := two_ne_zero_zmod hMp hM2
    have : ((-16 : ZMod M)) = -(2 ^ 4) := by norm_num
    rw [this, neg_eq_zero] at h16
    exact pow_ne_zero 4 h2 h16
  · have hdvd : (M : Int) ∣ (4 * c.a ^ 3 + 27 * c.b ^ 2) :=
      (ZMod.intCast_zmod_eq_zero_iff_dvd _ M).mp hD
    rw [← hm] at hdvd
    exact hdisc (Int.emod_eq_zero_of_dvd hdvd)

/-- The validity invariant maintained by the code's operations over the
fixed curve `c`: the point references `c`, respects the both-or-neither
coordinate representation, and satisfies the membership check. -/
def Valid (c : EllipticCurve) (pt : Point) : Prop :=
  pt.curve = c ∧ wellFormed pt ∧ isOnCurve pt = true

/-- Abstraction of an embedded point into a Mathlib nonsingular point.
Points that are not on `c` (which never arise for valid points) go to 0. -/
def toPt {M : Nat} {c : EllipticCurve} (hm : c.p = (M : Int))
    (hΔ : (toW c M).Δ ≠ 0) (pt : Point) : (toW c M).Point :=
  match pt.x, pt.y with
  | some x, some y =>
    if h : isOnCurve ⟨c, some x, some y⟩ = true then
      .some ((toW c M).nonsingular_of_Δ_ne_zero ((toW_equation_iff hm x y).mpr h) hΔ)
    else 0
  | _, _ => 0

theorem toPt_inf {M : Nat} {c : EllipticCurve} (hm : c.p = (M : Int))
    (hΔ : (toW c M).Δ ≠ 0) (c' : EllipticCurve) :
    toPt hm hΔ ⟨c', none, none⟩ = 0 :=
  rfl

theorem toPt_aff {M : Nat} {c : EllipticCurve} (hm : c.p = (M : Int))
    (hΔ : (toW c M).Δ ≠ 0) (c' : EllipticCurve) (x y : Int)
    (h : isOnCurve ⟨c, some x, some y⟩ = true) :
    toPt hm hΔ ⟨c', some x, some y⟩ =
      .some ((toW c M).nonsingular_of_Δ_ne_zero ((toW_equation_iff hm x y).mpr h) hΔ) := by
  show dite _ _ _ = _
  rw [dif_pos h]

/-- Two Mathlib affine points with equal coordinates are equal. -/
theorem some_ext {F : Type} [Field F] {W : WeierstrassCurve.Affine F}
    {x1 y1 x2 y2 : F} (h1 : W.Nonsingular x1 y1) (h2 : W.Nonsingular x2 y2)
    (hx : x1 = x2) (hy : y1 = y2) :
    (WeierstrassCurve.Affine.Point.some h1) = .some h2 := by
  subst hx
  subst hy
  rfl

theorem gcd_one_of_emod_ne_zero {M : Nat} {c : EllipticCurve} [Fact M.Prime]
    (hm : c.p = (M : Int)) {d : Int} (h : d % c.p ≠ 0) : Int.gcd d c.p = 1 := by
  have hnd : ¬ (c.p ∣ d) := fun hdvd => h (Int.emod_eq_zero_of_dvd hdvd)
  have hndM : ¬ (M ∣ d.natAbs) := fun hMd => by
    refine hnd ?_
    rw [hm]
    exact Int.dvd_natAbs.mp (Int.natCast_dvd_natCast.mpr hMd)
  show d.natAbs.gcd c.p.natAbs = 1
  rw [hm]
  show d.natAbs.gcd ((M : Int)).natAbs = 1
  rw [Int.natAbs_ofNat]
  exact Nat.coprime_comm.mp ((Nat.Prime.coprime_iff_not_dvd Fact.out).mpr hndM)

theorem toW_negY {M : Nat} (c : EllipticCurve) (x y : ZMod M) :
    (toW c M).negY x y = -y := by
  simp [toW, WeierstrassCurve.Affine.negY]

/-- The code's `add` refines the Mathlib group operation on the abstracted
points, over a prime modulus: it always succeeds on valid points, preserves
validity, and tracks `+`. -/
theorem add_refines {M : Nat} {c : EllipticCurve} [Fact M.Prime]
    (hm : c.p = (M : Int)) (hΔ : (toW c M).Δ ≠ 0)
    {p q : Point} (hp : Valid c p) (hq : Valid c q) :
    ∃ r, add p q = .ok r ∧ Valid c r ∧
      toPt hm hΔ r = toPt hm hΔ p + toPt hm hΔ q := by
  have hp1 : 1 < c.p := by
    rw [hm]
    exact_mod_cast Nat.Prime.one_lt (Fact.out)
  obtain ⟨hpc, hpw, hpo⟩ := hp
  obtain ⟨hqc, hqw, hqo⟩ := hq
  obtain ⟨px, py, rfl⟩ : ∃ px py, p = Point.mk c px py := by
    rcases p with ⟨pc, px', py'⟩
    dsimp only at hpc
    rw [hpc]
    exact ⟨px', py', rfl⟩
  obtain ⟨qx, qy, rfl⟩ : ∃ qx qy, q = Point.mk c qx qy := by
    rcases q with ⟨qc, qx', qy'⟩
    dsimp only at hqc
    rw [hqc]
    exact ⟨qx', qy', rfl⟩
  cases px with
  | none =>
    have hpy : py = none := hpw.mp rfl
    subst hpy
    refine ⟨⟨c, qx, qy⟩, add_inf_left rfl, ⟨rfl, hqw, hqo⟩, ?_⟩
    rw [toPt_inf, zero_add]
  | some x1 =>
    obtain ⟨y1, hpy⟩ : ∃ y, py = some y := by
      cases py with
      | none => exact absurd (hpw.mpr rfl) (by simp)
      | some y => exact ⟨y, rfl⟩
    subst hpy
    cases qx with
    | none =>
      have hqy : qy = none := hqw.mp rfl
      subst hqy
      refine ⟨⟨c, some x1, some y1⟩, add_inf_right c x1 y1,
        ⟨rfl, by simp [wellFormed], hpo⟩, ?_⟩
      rw [toPt_inf, add_zero]
    | some x2 =>
      obtain ⟨y2, hqy⟩ : ∃ y, qy = some y := by
        cases qy with
        | none => exact absurd (hqw.mpr rfl) (by simp)
        | some y => exact ⟨y, rfl⟩
      subst hqy
      have h1' := (toW_equation_iff hm x1 y1).mpr hpo
      have h2' := (toW_equation_iff hm x2 y2).mpr hqo
      by_cases hx : x1 % c.p = x2 % c.p
      · have hxZ : ((x1 : Int) : ZMod M) = ((x2 : Int) : ZMod M) := (castEq hm _ _).mp hx
        by_cases hyc : y1 % c.p = (-y2) % c.p
        · -- cancellation branch: p == -q
          have hycZ : ((y1 : Int) : ZMod M) = -((y2 : Int) : ZMod M) := by
            have := (castEq hm _ _).mp hyc
            push_cast at this
            exact this
          refine ⟨infinity c, add_cancel hqo hx hyc, ⟨rfl, by simp [wellFormed, infinity], rfl⟩, ?_⟩
          rw [show infinity c = (⟨c, none, none⟩ : Point) from rfl]
          rw [toPt_inf, toPt_aff hm hΔ c x1 y1 hpo, toPt_aff hm hΔ c x2 y2 hqo]
          symm
          apply WeierstrassCurve.Affine.Point.add_of_Y_eq hxZ
          rw [toW_negY]
          exact hycZ
        · by_cases hyd : y1 % c.p = y2 % c.p
          · -- doubling branch
            have hydZ : ((y1 : Int) : ZMod M) = ((y2 : Int) : ZMod M) := (castEq hm _ _).mp hyd
            have hden : (2 * y1) % c.p ≠ 0 := by
              intro h0
              apply hyc
              rw [castEq hm]
              push_cast
              have h2Y : (2 : ZMod M) * ((y1 : Int) : ZMod M) = 0 := by
                have := (castEq hm (2 * y1) 0).mp (by rw [h0, Int.zero_emod])
                push_cast at this
                exact this
              rw [← hydZ]
              linear_combination h2Y
            have hg : Int.gcd ((2 * y1) % c.p) c.p = 1 :=
              gcd_one_of_emod_ne_zero hm (by rw [emod_idem]; exact hden)
            have hnc : ¬(x1 % c.p = x2 % c.p ∧ y1 % c.p = (-y2) % c.p) :=
              fun hand => hyc hand.2
            have hres := result_onCurve_double hm hpo hxZ.symm (doubleSlope_cast hm hg)
            refine ⟨_, add_ok_double hm hp1 hpo hqo hnc ⟨hx, hyd⟩ hg,
              ⟨rfl, by simp [wellFormed], hres⟩, ?_⟩
            rw [toPt_aff hm hΔ c _ _ hres, toPt_aff hm hΔ c x1 y1 hpo,
              toPt_aff hm hΔ c x2 y2 hqo]
            have hyne : ((y1 : Int) : ZMod M) ≠ (toW c M).negY ((x2 : Int) : ZMod M) ((y2 : Int) : ZMod M) := by
              rw [toW_negY]
              intro hcontra
              apply hyc
              rw [castEq hm]
              push_cast
              exact hcontra
            rw [WeierstrassCurve.Affine.Point.add_of_Y_ne hyne]
            have h2Yne : (2 : ZMod M) * ((y1 : Int) : ZMod M) ≠ 0 := by
              intro h0
              apply hden
              rw [show (0 : Int) = 0 % c.p from (Int.zero_emod c.p).symm]
              rw [castEq hm]
              push_cast
              linear_combination h0
            have hS := @doubleSlope_cast M c hm x1 y1 hg
            have hL : (toW c M).slope ((x1 : Int) : ZMod M) ((x2 : Int) : ZMod M)
                ((y1 : Int) : ZMod M) ((y2 : Int) : ZMod M) =
                ((doubleSlope c x1 y1 : Int) : ZMod M) := by
              rw [WeierstrassCurve.Affine.slope_of_Y_ne hxZ hyne, toW_negY]
              rw [eq_comm, eq_div_iff (by rw [sub_neg_eq_add]; intro h0; exact h2Yne (by linear_combination h0))]
              simp only [toW]
              linear_combination hS
            apply some_ext
            · rw [x3val_cast hm]
              simp only [WeierstrassCurve.Affine.addX]
              rw [hL]
              simp only [toW]
              ring
            · rw [y3val_cast hm]
              simp only [WeierstrassCurve.Affine.addY, WeierstrassCurve.Affine.negAddY,
                WeierstrassCurve.Affine.addX, WeierstrassCurve.Affine.negY]
              rw [hL]
              simp only [toW]
              ring
          · -- impossible over a field: x's equal, y ≠ y2 and y ≠ -y2
            exfalso
            rcases WeierstrassCurve.Affine.Y_eq_of_X_eq h1' h2' hxZ with hcase | hcase
            · exact hyd ((castEq hm _ _).mpr hcase)
            · rw [toW_negY] at hcase
              apply hyc
              rw [castEq hm]
              push_cast
              exact hcase
      · -- distinct-x branch
        have hxZ : ((x1 : Int) : ZMod M) ≠ ((x2 : Int) : ZMod M) :=
          fun he => hx ((castEq hm _ _).mpr he)
        have hden : (x2 - x1) % c.p ≠ 0 := by
          intro h0
          apply hx
          rw [Int.emod_eq_emod_iff_emod_sub_eq_zero]
          rw [show x1 - x2 = -(x2 - x1) from by ring]
          exact neg_emod_zero h0
        have hg : Int.gcd ((x2 - x1) % c.p) c.p = 1 :=
          gcd_one_of_emod_ne_zero hm (by rw [emod_idem]; exact hden)
        have hnc : ¬(x1 % c.p = x2 % c.p ∧ y1 % c.p = (-y2) % c.p) := fun hand => hx hand.1
        have hnd : ¬(x1 % c.p = x2 % c.p ∧ y1 % c.p = y2 % c.p) := fun hand => hx hand.1
        have hu : ∃ u : ZMod M, (((x2 : Int) : ZMod M) - ((x1 : Int) : ZMod M)) * u = 1 := by
          refine ⟨((pyInv ((x2 - x1) % c.p) c.p : Int) : ZMod M), ?_⟩
          have := pyInv_mul hm hg
          rw [castEmod hm] at this
          push_cast at this
          exact this
        have hres := result_onCurve hm hpo hqo (chordSlope_cast hm hg) hu
        refine ⟨_, add_ok_distinct hm hp1 hpo hqo hnc hnd hg,
          ⟨rfl, by simp [wellFormed], hres⟩, ?_⟩
        rw [toPt_aff hm hΔ c _ _ hres, toPt_aff hm hΔ c x1 y1 hpo,
          toPt_aff hm hΔ c x2 y2 hqo]
        rw [WeierstrassCurve.Affine.Point.add_of_X_ne hxZ]
        have hsub : ((x2 : Int) : ZMod M) - ((x1 : Int) : ZMod M) ≠ 0 :=
          sub_ne_zero.mpr (Ne.symm hxZ)
        have hS := @chordSlope_cast M c hm x1 y1 x2 y2 hg
        have hL : (toW c M).slope ((x1 : Int) : ZMod M) ((x2 : Int) : ZMod M)
            ((y1 : Int) : ZMod M) ((y2 : Int) : ZMod M) =
            ((chordSlope c x1 y1 x2 y2 : Int) : ZMod M) := by
          rw [WeierstrassCurve.Affine.slope_of_X_ne hxZ]
          rw [eq_comm, eq_div_iff (sub_ne_zero.mpr hxZ)]
          linear_combination -hS
        apply some_ext
        · rw [x3val_cast hm]
          simp only [WeierstrassCurve.Affine.addX]
          rw [hL]
          simp only [toW]
          ring
        · rw [y3val_cast hm]
          simp only [WeierstrassCurve.Affine.addY, WeierstrassCurve.Affine.negAddY,
            WeierstrassCurve.Affine.addX, WeierstrassCurve.Affine.negY]
          rw [hL]
          simp only [toW]
          ring

/-- The code's equality refines equality of the abstracted points. -/
theorem eq_refines {M : Nat} {c : EllipticCurve} [Fact M.Prime]
    (hm : c.p = (M : Int)) (hΔ : (toW c M).Δ ≠ 0)
    {p q : Point} (hp : Valid c p) (hq : Valid c q) :
    ∃ b, eqPoints p q = .ok b ∧ (b = true ↔ toPt hm hΔ p = toPt hm hΔ q) := by
  obtain ⟨hpc, hpw, hpo⟩ := hp
  obtain ⟨hqc, hqw, hqo⟩ := hq
  obtain ⟨px, py, rfl⟩ : ∃ px py, p = Point.mk c px py := by
    rcases p with ⟨pc, px', py'⟩
    dsimp only at hpc
    rw [hpc]
    exact ⟨px', py', rfl⟩
  obtain ⟨qx, qy, rfl⟩ : ∃ qx qy, q = Point.mk c qx qy := by
    rcases q with ⟨qc, qx', qy'⟩
    dsimp only at hqc
    rw [hqc]
    exact ⟨qx', qy', rfl⟩
  cases px with
  | none =>
    have hpy : py = none := hpw.mp rfl
    subst hpy
    cases qx with
    | none =>
      have hqy : qy = none := hqw.mp rfl
      subst hqy
      exact ⟨true, rfl, by simp⟩
    | some x2 =>
      obtain ⟨y2, rfl⟩ : ∃ y, qy = some y := by
        cases qy with
        | none => exact absurd (hqw.mpr rfl) (by simp)
        | some y => exact ⟨y, rfl⟩
      refine ⟨false, rfl, ?_⟩
      rw [toPt_inf, toPt_aff hm hΔ c x2 y2 hqo]
      constructor
      · intro hb
        exact absurd hb (by simp)
      · intro h
        exact absurd h.symm (WeierstrassCurve.Affine.Point.some_ne_zero _)
  | some x1 =>
    obtain ⟨y1, rfl⟩ : ∃ y, py = some y := by
      cases py with
      | none => exact absurd (hpw.mpr rfl) (by simp)
      | some y => exact ⟨y, rfl⟩
    cases qx with
    | none =>
      have hqy : qy = none := hqw.mp rfl
      subst hqy
      refine ⟨false, rfl, ?_⟩
      rw [toPt_inf, toPt_aff hm hΔ c x1 y1 hpo]
      constructor
      · intro hb
        exact absurd hb (by simp)
      · intro h
        exact absurd h (WeierstrassCurve.Affine.Point.some_ne_zero _)
    | some x2 =>
      obtain ⟨y2, rfl⟩ : ∃ y, qy = some y := by
        cases qy with
        | none => exact absurd (hqw.mpr rfl) (by simp)
        | some y => exact ⟨y, rfl⟩
      refine ⟨_, eqPoints_same c x1 y1 x2 y2, ?_⟩
      rw [toPt_aff hm hΔ c x1 y1 hpo, toPt_aff hm hΔ c x2 y2 hqo]
      constructor
      · intro hb
        obtain ⟨hx, hy⟩ := of_decide_eq_true hb
        exact some_ext _ _ ((castEq hm _ _).mp hx) ((castEq hm _ _).mp hy)
      · intro hsome
        simp only [WeierstrassCurve.Affine.Point.some.injEq] at hsome
        exact decide_eq_true ⟨(castEq hm _ _).mpr hsome.1, (castEq hm _ _).mpr hsome.2⟩

/-- The double-and-add loop refines `toPt r + s • toPt cur`. -/
theorem mulLoop_refines {M : Nat} {c : EllipticCurve} [Fact M.Prime]
    (hm : c.p = (M : Int)) (hΔ : (toW c M).Δ ≠ 0) :
    ∀ (s : Nat) (r cur : Point), Valid c r → Valid c cur →
      ∃ out, mulLoop r cur s = .ok out ∧ Valid c out ∧
        toPt hm hΔ out = toPt hm hΔ r + s • toPt hm hΔ cur := by
  intro s
  induction s using Nat.strong_induction_on with
  | _ s ih =>
    intro r cur hr hcur
    by_cases hs : s = 0
    · subst hs
      refine ⟨r, ?_, hr, by rw [zero_nsmul, add_zero]⟩
      rw [mulLoop]
      exact dif_pos rfl
    · obtain ⟨r', hstep, hr'valid, hr'abs⟩ :
          ∃ r', (if s % 2 = 1 then add r cur else .ok r) = .ok r' ∧ Valid c r' ∧
            toPt hm hΔ r' = toPt hm hΔ r + (s % 2) • toPt hm hΔ cur := by
        by_cases hodd : s % 2 = 1
        · obtain ⟨r', h1, h2, h3⟩ := add_refines hm hΔ hr hcur
          exact ⟨r', by rw [if_pos hodd]; exact h1, h2, by rw [h3, hodd, one_nsmul]⟩
        · have hev : s % 2 = 0 := by omega
          exact ⟨r, by rw [if_neg hodd], hr, by rw [hev, zero_nsmul, add_zero]⟩
      obtain ⟨cc, hcstep, hcvalid, hcabs⟩ := add_refines hm hΔ hcur hcur
      obtain ⟨out, hout, houtv, houta⟩ :=
        ih (s / 2) (Nat.div_lt_self (Nat.pos_of_ne_zero hs) one_lt_two) r' cc hr'valid hcvalid
      refine ⟨out, ?_, houtv, ?_⟩
      · rw [mulLoop_ok_step hs hstep hcstep]
        exact hout
      · rw [houta, hr'abs, hcabs]
        have h2 : (s / 2) • (toPt hm hΔ cur + toPt hm hΔ cur) =
            (s / 2 * 2) • toPt hm hΔ cur := by
          rw [← two_nsmul, ← mul_nsmul']
        rw [h2, add_assoc, ← add_nsmul]
        have hsum : s % 2 + s / 2 * 2 = s := Nat.mod_add_div' s 2
        rw [hsum]

/-- The iterated sum refines `k • toPt p`. -/
theorem addIter_refines {M : Nat} {c : EllipticCurve} [Fact M.Prime]
    (hm : c.p = (M : Int)) (hΔ : (toW c M).Δ ≠ 0)
    {p : Point} (hp : Valid c p) :
    ∀ k : Nat, ∃ out, addIter p k = .ok out ∧ Valid c out ∧
      toPt hm hΔ out = k • toPt hm hΔ p := by
  intro k
  induction k with
  | zero =>
    refine ⟨infinity c, ?_, ⟨rfl, by simp [wellFormed, infinity], rfl⟩, by rw [zero_nsmul]; rfl⟩
    show (Except.ok (infinity p.curve) : Except PyErr Point) = Except.ok (infinity c)
    rw [hp.1]
  | succ k ih =>
    obtain ⟨out, h1, h2, h3⟩ := ih
    obtain ⟨out', h1', h2', h3'⟩ := add_refines hm hΔ h2 hp
    refine ⟨out', ?_, h2', ?_⟩
    · show (match addIter p k with
        | .error e => (.error e : Except PyErr Point)
        | .ok acc => add acc p) = .ok out'
      rw [h1]
      exact h1'
    · rw [h3', h3, succ_nsmul]

/-! ### The degenerate modulus `p = 2`, handled directly: every doubling
cancels (`y ≡ -y (mod 2)`), so both computations collapse to the parity
of the scalar. -/

theorem eqPoints_refl {pt : Point} (hw : wellFormed pt) : eqPoints pt pt = .ok true := by
  rcases pt with ⟨pc, px, py⟩
  cases px with
  | none =>
    have : py = none := hw.mp rfl
    subst this
    rfl
  | some x =>
    obtain ⟨y, rfl⟩ : ∃ y, py = some y := by
      cases py with
      | none => exact absurd (hw.mpr rfl) (by simp)
      | some y => exact ⟨y, rfl⟩
    rw [eqPoints_same]
    simp

theorem add_any_inf {c : EllipticCurve} {r : Point} (hr : r.curve = c)
    (hw : wellFormed r) : add r (infinity c) = .ok r := by
  obtain ⟨rx, ry, rfl⟩ : ∃ rx ry, r = Point.mk c rx ry := by
    rcases r with ⟨rc, rx', ry'⟩
    dsimp only at hr
    rw [hr]
    exact ⟨rx', ry', rfl⟩
  cases rx with
  | none =>
    have : ry = none := hw.mp rfl
    subst this
    exact add_inf_left rfl
  | some x =>
    obtain ⟨y, rfl⟩ : ∃ y, ry = some y := by
      cases ry with
      | none => exact absurd (hw.mpr rfl) (by simp)
      | some y => exact ⟨y, rfl⟩
    exact add_inf_right c x y

theorem mulLoop_inf_cur {c : EllipticCurve} :
    ∀ (s : Nat) (r : Point), r.curve = c → wellFormed r →
      mulLoop r (infinity c) s = .ok r := by
  intro s
  induction s using Nat.strong_induction_on with
  | _ s ih =>
    intro r hr hw
    by_cases hs : s = 0
    · subst hs
      rw [mulLoop]
      exact dif_pos rfl
    · have hstep1 : (if s % 2 = 1 then add r (infinity c) else .ok r) = .ok r := by
        by_cases h : s % 2 = 1
        · rw [if_pos h]
          exact add_any_inf hr hw
        · rw [if_neg h]
      have hstep2 : add (infinity c) (infinity c) = .ok (infinity c) := add_inf_left rfl
      rw [mulLoop_ok_step hs hstep1 hstep2]
      exact ih (s / 2) (Nat.div_lt_self (Nat.pos_of_ne_zero hs) one_lt_two) r hr hw

theorem add_self_mod2 {c : EllipticCurve} {x y : Int} (hm : c.p = ((2 : Nat) : Int))
    (hoc : isOnCurve ⟨c, some x, some y⟩ = true) :
    add ⟨c, some x, some y⟩ ⟨c, some x, some y⟩ = .ok (infinity c) := by
  apply add_cancel hoc rfl
  rw [Int.emod_eq_emod_iff_emod_sub_eq_zero]
  have h : y - -y = 2 * y := by ring
  rw [h, hm]
  exact Int.mul_emod_right 2 y

theorem mul_aff_mod2 {c : EllipticCurve} {x y : Int} (hm : c.p = ((2 : Nat) : Int))
    (hoc : isOnCurve ⟨c, some x, some y⟩ = true) (k : Int) (hk : 0 < k) :
    mul ⟨c, some x, some y⟩ k =
      .ok (if k.toNat % 2 = 1 then ⟨c, some x, some y⟩ else infinity c) := by
  rw [mul_pos_eval _ k hk (by simp)]
  have hkn : k.toNat ≠ 0 := by omega
  have hstep1 : (if k.toNat % 2 = 1
        then add (infinity c) ⟨c, some x, some y⟩ else .ok (infinity c)) =
      .ok (if k.toNat % 2 = 1 then ⟨c, some x, some y⟩ else infinity c) := by
    by_cases h : k.toNat % 2 = 1
    · rw [if_pos h, if_pos h]
      exact add_inf_left rfl
    · rw [if_neg h, if_neg h]
  have hstep2 : add ⟨c, some x, some y⟩ ⟨c, some x, some y⟩ = .ok (infinity c) :=
    add_self_mod2 hm hoc
  rw [mulLoop_ok_step hkn hstep1 hstep2]
  by_cases h : k.toNat % 2 = 1
  · rw [if_pos h]
    exact mulLoop_inf_cur _ _ rfl (by simp [wellFormed])
  · rw [if_neg h]
    exact mulLoop_inf_cur _ _ rfl (by simp [wellFormed, infinity])

theorem addIter_aff_mod2 {c : EllipticCurve} {x y : Int} (hm : c.p = ((2 : Nat) : Int))
    (hoc : isOnCurve ⟨c, some x, some y⟩ = true) :
    ∀ n : Nat, addIter ⟨c, some x, some y⟩ n =
      .ok (if n % 2 = 1 then ⟨c, some x, some y⟩ else infinity c) := by
  intro n
  induction n with
  | zero => rfl
  | succ n ih =>
    show (match addIter ⟨c, some x, some y⟩ n with
      | .error e => (.error e : Except PyErr Point)
      | .ok acc => add acc ⟨c, some x, some y⟩) = _
    rw [ih]
    by_cases h : n % 2 = 1
    · rw [if_pos h, if_neg (show ¬(n + 1) % 2 = 1 by omega)]
      exact add_self_mod2 hm hoc
    · rw [if_neg h, if_pos (show (n + 1) % 2 = 1 by omega)]
      exact add_inf_left rfl

theorem addIter_inf (c : EllipticCurve) :
    ∀ k : Nat, addIter ⟨c, none, none⟩ k = .ok ⟨c, none, none⟩ := by
  intro k
  induction k with
  | zero => rfl
  | succ k ih =>
    show (match addIter (⟨c, none, none⟩ : Point) k with
      | .error e => (.error e : Except PyErr Point)
      | .ok acc => add acc ⟨c, none, none⟩) = _
    rw [ih]
    exact add_inf_left rfl

theorem mul_inf (c : EllipticCurve) (k : Int) (hk : 0 ≤ k) :
    mul ⟨c, none, none⟩ k = .ok ⟨c, none, none⟩ := by
  unfold mul mulNat
  rw [if_neg (by omega)]
  by_cases h : k.toNat = 0
  · rw [if_pos h]
    rfl
  · rw [if_neg h, if_pos rfl]

theorem mul_zero_eval (pt : Point) : mul pt 0 = .ok (infinity pt.curve) := by
  unfold mul mulNat
  rw [if_neg (by omega)]
  exact if_pos rfl

/-- C7: over a (valid) prime-modulus curve, for every valid point `p` and
`0 ≤ k ≤ 20`, the double-and-add `scalarMultiply(p, k)` and the `k`-fold
iterated `add` both succeed and return points the code's own equality
deems equal; moreover `scalarMultiply(p, 0)` is infinity and a negative
scalar multiplies the negated point by the positive scalar. -/
theorem C7_scalarMultiply_consistency {c : EllipticCurve} {p : Point}
    (hppos : 0 < c.p) (hpr : Nat.Prime c.p.toNat)
    (hdisc : (4 * c.a ^ 3 + 27 * c.b ^ 2) % c.p ≠ 0)
    (hc : p.curve = c) (hwf : wellFormed p) (hoc : isOnCurve p = true) :
    (∀ k : Int, 0 ≤ k → k ≤ 20 →
      ∃ r1 r2, mul p k = .ok r1 ∧ addIter p k.toNat = .ok r2 ∧
        eqPoints r1 r2 = .ok true) ∧
    mul p 0 = .ok (infinity c) ∧
    (∀ k : Int, 0 < k →
      mul p (-k) =
        (match neg p with
         | .error e => (.error e : Except PyErr Point)
         | .ok np => mul np k)) := by
  have hm : c.p = (c.p.toNat : Int) := (Int.toNat_of_nonneg hppos.le).symm
  refine ⟨?_, ?_, ?_⟩
  · intro k hk0 hk20
    obtain ⟨px, py, rfl⟩ : ∃ px py, p = Point.mk c px py := by
      rcases p with ⟨pc, px', py'⟩
      dsimp only at hc
      rw [hc]
      exact ⟨px', py', rfl⟩
    cases px with
    | none =>
      have hpy : py = none := hwf.mp rfl
      subst hpy
      exact ⟨⟨c, none, none⟩, ⟨c, none, none⟩, mul_inf c k hk0, addIter_inf c k.toNat,
        eqPoints_refl (by simp [wellFormed])⟩
    | some x =>
      obtain ⟨y, rfl⟩ : ∃ y, py = some y := by
        cases py with
        | none => exact absurd (hwf.mpr rfl) (by simp)
        | some y => exact ⟨y, rfl⟩
      by_cases hM2 : c.p.toNat = 2
      · have hm2 : c.p = ((2 : Nat) : Int) := by rw [hm, hM2]
        by_cases hk : k = 0
        · subst hk
          exact ⟨infinity c, infinity c, mul_zero_eval _, rfl,
            eqPoints_refl (by simp [wellFormed, infinity])⟩
        · have hkpos : 0 < k := by omega
          refine ⟨_, _, mul_aff_mod2 hm2 hoc k hkpos, addIter_aff_mod2 hm2 hoc k.toNat, ?_⟩
          apply eqPoints_refl
          by_cases hpar : k.toNat % 2 = 1
          · simp [hpar, wellFormed]
          · simp [hpar, wellFormed, infinity]
      · haveI : Fact (Nat.Prime c.p.toNat) := ⟨hpr⟩
        have hΔ : (toW c c.p.toNat).Δ ≠ 0 := toW_Δ_ne_zero hm hpr hM2 hdisc
        have hv : Valid c ⟨c, some x, some y⟩ := ⟨rfl, by simp [wellFormed], hoc⟩
        by_cases hk : k = 0
        · subst hk
          exact ⟨infinity c, infinity c, mul_zero_eval _, rfl,
            eqPoints_refl (by simp [wellFormed, infinity])⟩
        · have hkpos : 0 < k := by omega
          have hvinf : Valid c (infinity c) := ⟨rfl, by simp [wellFormed, infinity], rfl⟩
          obtain ⟨out, hout, houtv, houta⟩ :=
            mulLoop_refines hm hΔ k.toNat (infinity c) ⟨c, some x, some y⟩ hvinf hv
          obtain ⟨out2, hout2, hout2v, hout2a⟩ := addIter_refines hm hΔ hv k.toNat
          obtain ⟨b, hb, hbiff⟩ := eq_refines hm hΔ houtv hout2v
          refine ⟨out, out2, ?_, hout2, ?_⟩
          · rw [mul_pos_eval _ k hkpos (by simp)]
            exact hout
          · rw [hb]
            have hbt : b = true := hbiff.mpr (by
              rw [houta, hout2a, show infinity c = (⟨c, none, none⟩ : Point) from rfl,
                toPt_inf, zero_add])
            rw [hbt]
  · have h := mul_zero_eval p
    rw [hc] at h
    exact h
  · intro k hk
    cases hneg : neg p with
    | error e =>
      show mul p (-k) = .error e
      unfold mul
      rw [if_pos (show -k < 0 by omega), hneg]
    | ok np =>
      show mul p (-k) = mul np k
      unfold mul
      rw [if_pos (show -k < 0 by omega), hneg, if_neg (show ¬k < 0 by omega), neg_neg]

/-- Witness for C7 at the point `(0, 1)` of `y² = x³ + x + 1 mod 5`. -/
theorem C7_scalarMultiply_consistency_witness :
    (∀ k : Int, 0 ≤ k → k ≤ 20 →
      ∃ r1 r2, mul ⟨⟨1, 1, 5⟩, some 0, some 1⟩ k = .ok r1 ∧
        addIter ⟨⟨1, 1, 5⟩, some 0, some 1⟩ k.toNat = .ok r2 ∧
        eqPoints r1 r2 = .ok true) ∧
    mul ⟨⟨1, 1, 5⟩, some 0, some 1⟩ 0 = .ok (infinity ⟨1, 1, 5⟩) ∧
    (∀ k : Int, 0 < k →
      mul ⟨⟨1, 1, 5⟩, some 0, some 1⟩ (-k) =
        (match neg ⟨⟨1, 1, 5⟩, some 0, some 1⟩ with
         | .error e => (.error e : Except PyErr Point)
         | .ok np => mul np k)) :=
  C7_scalarMultiply_consistency (by norm_num) (by decide) (by decide) rfl
    (by decide) (by decide)

end TFG
